import Mathlib

/-!
# Axis permutation of strided tensors (`itensor/tensor/permute.h`)

A shallow embedding of the permute engine and its overloads, followed by the
properties proved about them.

Conventions of the embedding.

* Storage is one flat memory `Mem α := Int → α`; a view's `data` is the address
  of its first element, so whether two views overlap is a property of their
  addresses and not an assumption of the model.
* A callable `func(Real& x, Real y)` invoked as `func(*pto,*pfrom)` is a state
  transformer `call s pto pfrom`: it receives the state and the two addresses.
  `memCall f` is the callable that stores `f (*pto) (*pfrom)` into `*pto`.
* `for(; c.notDone(); ++c)` is run with a fuel bound; running out of fuel is
  the distinguished outcome `Result.outOfFuel`.
* `DEBUG` says which build is modelled: with it the `#ifdef DEBUG` blocks of
  `permute.h` are compiled in and the pointers built by `MAKE_SAFE_PTR3` check
  their bounds on dereference; without it they are plain addresses.
* Headers that `permute.h` includes (`ten.h`, `permutation.h`, `gcounter.h`)
  are modelled from the spec; each such definition says so.
* The parameters named `from` and `to` in the source are called `frm` and
  `dst` here (both words are reserved in Lean).
* `size_t`/`long` quantities are unbounded `Nat`/`Int`.
-/

namespace itensor

/-! ## Data model -/

/-- Modelled from the spec: one axis of a `Range` (`ten.h`), its extent and its
stride (§3); the field `ext` is the one written by `rstore[P.dest(j)].ext`. -/
structure IndStr where
  ext : Nat
  str : Int
  deriving DecidableEq

instance : Inhabited IndStr := ⟨⟨0, 0⟩⟩

/-- Modelled from the spec: the view `TensorRef` (`ten.h`), a non-owning
descriptor of base address and per-axis extent and stride (§3). -/
structure TensorRef where
  data : Int
  range : List IndStr
  deriving DecidableEq

namespace TensorRef

/-- Modelled from the spec: the rank `r()` (§6). -/
def r (t : TensorRef) : Nat := t.range.length

/-- Modelled from the spec: the extent of an axis, `extent(j)` (§6); 0 outside
the axes. -/
def extent (t : TensorRef) (j : Nat) : Nat := (t.range.getD j default).ext

/-- Modelled from the spec: the stride of an axis, `stride(j)` (§6); 0 outside
the axes. -/
def stride (t : TensorRef) (j : Nat) : Int := (t.range.getD j default).str

/-- Modelled from the spec: `size()`, declared in `ten.h`, is the total element
count, "product of extents" (1 for rank 0). -/
def size (t : TensorRef) : Nat := (t.range.map IndStr.ext).prod

end TensorRef

/-- Modelled from the spec: `ind(T, idx)`, declared in `ten.h`, the offset of an
index vector: every unit of the index on an axis skips `stride` storage
slots. -/
def ind (t : TensorRef) (idx : List Int) : Int :=
  (List.zipWith (fun x (a : IndStr) => x * a.str) idx t.range).sum

/-- Modelled from the spec: the permutation map of `permutation.h` (§3);
`store[j]` is the destination axis of source axis `j`. -/
structure Permutation where
  store : List Nat
  deriving DecidableEq

namespace Permutation

/-- Modelled from the spec: the number of axes, `size()` (§6). -/
def size (P : Permutation) : Nat := P.store.length

/-- Modelled from the spec: the destination axis of a source axis, `dest(j)`
(§6); 0 outside the axes. -/
def dest (P : Permutation) (j : Nat) : Nat := P.store.getD j 0

/-- Modelled from the spec: the constructor `Permutation(n)`, taken to be the
identity on `n` axes. -/
def ofSize (n : Nat) : Permutation := ⟨List.range n⟩

/-- Modelled from the spec: the setter `setFromTo(j, d)`, after which source
axis `j` goes to axis `d`. -/
def setFromTo (P : Permutation) (j d : Nat) : Permutation := ⟨P.store.set j d⟩

/-- A bijection on `[0, size)`: every destination is an axis, and no two
source axes share one. -/
def IsBijection (P : Permutation) : Prop :=
  (∀ j, j < P.size → P.dest j < P.size) ∧
  (∀ j, j < P.size → ∀ k, k < P.size → P.dest j = P.dest k → j = k)

instance (P : Permutation) : Decidable P.IsBijection := by
  unfold IsBijection; exact inferInstance

end Permutation

/-- Flat storage, addressed by integers. -/
abbrev Mem (α : Type) := Int → α

/-- Store a value at an address. -/
def Mem.write {α : Type} (m : Mem α) (a : Int) (v : α) : Mem α :=
  fun b => if b = a then v else m b

/-- The outcome of a call: normal return, a thrown `std::runtime_error` (with
the state at the throw), or fuel exhausted. -/
inductive Result (σ : Type) where
  | done (s : σ)
  | thrown (msg : String) (s : σ)
  | outOfFuel

/-! ## The odometer `detail::GCounter` -/

/-- Modelled from the spec: the odometer of `detail/gcounter.h` (§3, §4.1):
current index vector `i`, per-axis lower bounds `first` and inclusive upper
bounds `last`, and a terminal flag. -/
structure GCounter where
  i : List Int
  first : List Int
  last : List Int
  terminal : Bool
  deriving DecidableEq

namespace GCounter

/-- Modelled from the spec: the constructor, called as `GCounter c(0,r-1,0)`:
axes `0..e`, every index and both bounds at the start value. -/
def create (_b e : Nat) (start : Int) : GCounter :=
  ⟨List.replicate (e + 1) start, List.replicate (e + 1) start,
   List.replicate (e + 1) start, false⟩

/-- Modelled from the spec: `setInd(j, f, l)` ("setBound" in §4.1) overrides
the range of axis `j` and puts its index at the lower bound. -/
def setInd (c : GCounter) (j : Nat) (f l : Int) : GCounter :=
  { c with i := c.i.set j f, first := c.first.set j f, last := c.last.set j l }

/-- Modelled from the spec: the carry propagation of the mixed-radix counter
(§4.1), axis 0 first: the new index vector and whether the carry left the last
axis. -/
def carry : List Int → List Int → List Int → List Int × Bool
  | x :: xs, f :: fs, l :: ls =>
      if x + 1 ≤ l then ((x + 1) :: xs, false)
      else ((f :: (carry xs fs ls).1), (carry xs fs ls).2)
  | xs, _, _ => (xs, true)

/-- Modelled from the spec: `++c` ("advance" in §4.1) moves to the next
combination, carrying into higher axes on overflow; when the carry leaves the
last axis the sequence is exhausted. -/
def advance (c : GCounter) : GCounter :=
  { c with i := (carry c.i c.first c.last).1,
           terminal := c.terminal || (carry c.i c.first c.last).2 }

/-- Modelled from the spec: `notDone()` reports whether the sequence is not
yet exhausted. -/
def notDone (c : GCounter) : Bool := !c.terminal

end GCounter

/-! ## The engine -/

/-- The scan for the largest source axis (lines 84-91): position `bigind` and
size `bigsize`, a later axis winning only when strictly larger. -/
def findBig (frm : TensorRef) (r : Nat) : Nat × Nat :=
  (List.range (r - 1)).foldl
    (fun (acc : Nat × Nat) k =>
      if acc.2 < frm.extent (k + 1) then (k + 1, frm.extent (k + 1)) else acc)
    (0, frm.extent 0)

/-- The odometer as set up in lines 96-101: every axis `i` ranges over
`0..extent(i)-1`, then the big axis is pinned to `0..0`. -/
def mkCounter (frm : TensorRef) (r bigind : Nat) : GCounter :=
  ((List.range r).foldl
      (fun (c : GCounter) i => c.setInd i 0 ((frm.extent i : Int) - 1))
      (GCounter.create 0 (r - 1) 0)).setInd bigind 0 0

/-- The loop of lines 106-107: `ti[P.dest(j)] = c.i[j]` for `j < r`, on the
`ti` left by the previous pass. -/
def fillTi (P : Permutation) (r : Nat) (ci ti : List Int) : List Int :=
  (List.range r).foldl (fun t j => t.set (P.dest j) (ci.getD j 0)) ti

/-- Modelled from the spec: the bounds-checked pointer wrapper of
`util/safe_ptr.h` (§1), built by `MAKE_SAFE_PTR3(p, offset, bound)` with the
bound `size()`. In the unchecked build it is the plain pointer `p + offset`; in
the checked build a dereference at an offset outside `[0, bound)` throws.
`safeDeref DEBUG t a` says whether the dereference of address `a` in the
storage of view `t` goes through. -/
def safeDeref (DEBUG : Bool) (t : TensorRef) (a : Int) : Bool :=
  !DEBUG || (decide (t.data ≤ a) && decide (a < t.data + (t.size : Int)))

/-- The inner loop of lines 111-118: `n` times dereference both pointers, apply
the callable, then step both pointers. The text of the exception of a refused
dereference is a stand-in. -/
def innerLoop {σ : Type} (DEBUG : Bool) (call : σ → Int → Int → σ) (frm dst : TensorRef)
    (stepto stepfrom : Int) : Nat → Int → Int → σ → Result σ
  | 0, _, _, s => .done s
  | n + 1, pto, pfrom, s =>
      if safeDeref DEBUG dst pto && safeDeref DEBUG frm pfrom then
        innerLoop DEBUG call frm dst stepto stepfrom n (pto + stepto) (pfrom + stepfrom)
          (call s pto pfrom)
      else .thrown "SafePtr: offset out of range" s

/-- The outer loop of lines 104-119, `for(; c.notDone(); ++c)`; `ti` is
declared outside the loop and carried from pass to pass. -/
def outerLoop {σ : Type} (DEBUG : Bool) (call : σ → Int → Int → σ) (frm : TensorRef)
    (P : Permutation) (dst : TensorRef) (r bigsize : Nat) (stepto stepfrom : Int) :
    Nat → GCounter → List Int → σ → Result σ
  | 0, _, _, _ => .outOfFuel
  | fuel + 1, c, ti, s =>
      if c.notDone then
        match innerLoop DEBUG call frm dst stepto stepfrom bigsize
            (dst.data + ind dst (fillTi P r c.i ti)) (frm.data + ind frm c.i) s with
        | .done s' =>
            outerLoop DEBUG call frm P dst r bigsize stepto stepfrom fuel c.advance
              (fillTi P r c.i ti) s'
        | .thrown msg s' => .thrown msg s'
        | .outOfFuel => .outOfFuel
      else .done s

/-- The `#ifdef DEBUG` block of lines 66-73: the message of the first failing
check, if any. -/
def shapeCheck (frm : TensorRef) (P : Permutation) (dst : TensorRef) : Option String :=
  if P.size ≠ frm.r then some "Mismatched Permutation size in permute"
  else if dst.r ≠ frm.r then some "Mismatched tensor ranks in permute"
  else if dst.size ≠ frm.size then some "Mismatched storage sizes in permute"
  else if (List.range P.size).any (fun j => dst.extent (P.dest j) != frm.extent j) then
    some "Incompatible extents in permute"
  else none

/-- The engine `permute(from, P, to, func)` (lines 56-120); `DEBUG` says
whether the checked build is modelled: the checks of lines 65-74 and the
bounds-checked pointers. `Label ti(r)` starts as `r` zeros. -/
def permute {σ : Type} (DEBUG : Bool) (call : σ → Int → Int → σ) (fuel : Nat)
    (frm : TensorRef) (P : Permutation) (dst : TensorRef) (s : σ) : Result σ :=
  match (if DEBUG then shapeCheck frm P dst else none) with
  | some msg => .thrown msg s
  | none =>
    if P.size = 0 then .done (call s dst.data frm.data)
    else
      outerLoop DEBUG call frm P dst P.size (findBig frm P.size).2
        (dst.stride (P.dest (findBig frm P.size).1)) (frm.stride (findBig frm P.size).1)
        fuel (mkCounter frm P.size (findBig frm P.size).1) (List.replicate P.size 0) s

/-! ## Callables -/

/-- The callable that stores `f (*pto) (*pfrom)` into `*pto`. -/
def memCall {α : Type} (f : α → α → α) (m : Mem α) (pto pfrom : Int) : Mem α :=
  m.write pto (f (m pto) (m pfrom))

/-- The value left by `detail::assign`: `r1 = r2`. -/
def assign {α : Type} (_r1 r2 : α) : α := r2

/-- The value left by `detail::plusEq`: `r1 += r2`. -/
def plusEq {α : Type} [Add α] (r1 r2 : α) : α := r1 + r2

/-- A callable that logs its two addresses; the state is the log. -/
def traceCall (log : List (Int × Int)) (pto pfrom : Int) : List (Int × Int) :=
  log ++ [(pto, pfrom)]

/-- A callable that counts, per destination address, how often it was applied;
the state is the table of counts. -/
def countCall (cnt : Int → Nat) (pto _pfrom : Int) : Int → Nat :=
  fun a => if a = pto then cnt a + 1 else cnt a

/-! ## The overloads -/

/-- The overload `permute(from, P, to)` (lines 131-138): the engine with
`detail::assign`. -/
def permuteAssign {α : Type} (DEBUG : Bool) (fuel : Nat) (frm : TensorRef) (P : Permutation)
    (dst : TensorRef) (m : Mem α) : Result (Mem α) :=
  permute DEBUG (memCall assign) fuel frm P dst m

/-- The extents handed to the allocator (lines 154-158):
`rstore[P.dest(j)].ext = from.extent(j)` for `j < rstore.size()`. -/
def newRange (frm : TensorRef) (P : Permutation) : List IndStr :=
  (List.range frm.r).foldl
    (fun rs j => rs.set (P.dest j) { rs.getD (P.dest j) default with ext := frm.extent j })
    (List.replicate frm.r default)

/-- The allocating overload `permute(from, P) -> Ten` (lines 149-162). The
storage allocator `Ten(Range(std::move(rstore)))` is the parameter `alloc`: it
receives the target extents and returns the view of the newly owned array
(§6); what the new storage holds is whatever the memory holds there. The
returned `Ten` is that view together with the final memory. -/
def permuteNew {α : Type} (alloc : List IndStr → TensorRef) (DEBUG : Bool) (fuel : Nat)
    (frm : TensorRef) (P : Permutation) (m : Mem α) : Result (TensorRef × Mem α) :=
  match permuteAssign DEBUG fuel frm P (alloc (newRange frm P)) m with
  | .done m' => .done (alloc (newRange frm P), m')
  | .thrown msg m' => .thrown msg (alloc (newRange frm P), m')
  | .outOfFuel => .outOfFuel

/-- A list of axis labels (`Label`, also the type of the index vector `ti`). -/
abbrev Label := List Int

/-- The two label lists name the same labels, each exactly once. -/
def SameLabels (fL tL : Label) : Prop :=
  fL.Nodup ∧ tL.Nodup ∧ (∀ x, x ∈ fL → x ∈ tL) ∧ (∀ x, x ∈ tL → x ∈ fL)

instance (fL tL : Label) : Decidable (SameLabels fL tL) := by
  unfold SameLabels; exact inferInstance

/-- Modelled from the spec: `calc_permutation(fL, tL, P)`, declared outside
`permute.h` (§4.3): `P.dest(j)` becomes the position in `tL` of the label
`fL[j]`; in checked mode it fails with a LabelMismatch error when the lists are
not a bijection on the same label set. -/
def calc_permutation (DEBUG : Bool) (fL tL : Label) (P : Permutation) :
    Except String Permutation :=
  if DEBUG ∧ ¬ SameLabels fL tL then .error "LabelMismatch"
  else .ok ((List.range fL.length).foldl
    (fun Q j => Q.setFromTo j (tL.indexOf (fL.getD j 0))) P)

/-- The label overload `permute(from, fL, to, tL, func)` (lines 164-183). The
state is the memory, because of the plain store `*to.data() = *from.data()`. -/
def permuteLabel {α : Type} (DEBUG : Bool) (call : Mem α → Int → Int → Mem α) (fuel : Nat)
    (frm : TensorRef) (fL : Label) (dst : TensorRef) (tL : Label) (m : Mem α) :
    Result (Mem α) :=
  if DEBUG ∧ fL.length ≠ tL.length then .thrown "Mismatched sizes in permute" m
  else if fL.isEmpty then .done (m.write dst.data (m frm.data))
  else
    match calc_permutation DEBUG fL tL (Permutation.ofSize fL.length) with
    | .error msg => .thrown msg m
    | .ok P => permute DEBUG call fuel frm P dst m

/-- The label overload with the default operation (lines 185-193). -/
def permuteLabelAssign {α : Type} (DEBUG : Bool) (fuel : Nat) (frm : TensorRef) (fL : Label)
    (dst : TensorRef) (tL : Label) (m : Mem α) : Result (Mem α) :=
  permuteLabel DEBUG (memCall assign) fuel frm fL dst tL m

/-! ## Auxiliary definitions: what the odometer enumerates -/

/-- The values `x, x+1, ..., l`. -/
def upFrom (x l : Int) : List Int :=
  List.map (fun k : Nat => x + (k : Int)) (List.range (l + 1 - x).toNat)

/-- The values an axis with bounds `f..l` takes after a reset: `f`, then up to `l`. -/
def axisVals (f l : Int) : List Int := f :: upFrom (f + 1) l

/-- The index vectors the odometer visits strictly after `i`, in order. -/
def after : List Int → List Int → List Int → List (List Int)
  | x :: xs, f :: fs, l :: ls =>
      List.map (fun v => v :: xs) (upFrom (x + 1) l) ++
        (after xs fs ls).flatMap (fun t => List.map (fun v => v :: t) (axisVals f l))
  | _, _, _ => []

/-- All index vectors of an odometer with bounds `fs..ls`, axis 0 fastest. -/
def box : List Int → List Int → List (List Int)
  | [], [] => [[]]
  | f :: fs, l :: ls => (box fs ls).flatMap (fun t => List.map (fun v => v :: t) (axisVals f l))
  | _, _ => []

/-- The upper bounds of the odometer: `extent - 1` on every axis, `0` on the big axis. -/
def lastsOf (frm : TensorRef) (r bigind : Nat) : List Int :=
  (List.map (fun j => (frm.extent j : Int) - 1) (List.range r)).set bigind 0

/-! ## Auxiliary definitions: the loops over plain pointers -/

/-- The inner loop with plain pointers: `n` times apply the callable, then step both
addresses. -/
def innerPlain {σ : Type} (call : σ → Int → Int → σ) (stepto stepfrom : Int) :
    Nat → Int → Int → σ → σ
  | 0, _, _, s => s
  | n + 1, pto, pfrom, s =>
      innerPlain call stepto stepfrom n (pto + stepto) (pfrom + stepfrom) (call s pto pfrom)

/-- The outer loop over plain pointers. -/
def outerPlain {σ : Type} (call : σ → Int → Int → σ) (frm : TensorRef) (P : Permutation)
    (dst : TensorRef) (r bigsize : Nat) (stepto stepfrom : Int) :
    Nat → GCounter → List Int → σ → Result σ
  | 0, _, _, _ => .outOfFuel
  | fuel + 1, c, ti, s =>
      if c.notDone then
        outerPlain call frm P dst r bigsize stepto stepfrom fuel c.advance (fillTi P r c.i ti)
          (innerPlain call stepto stepfrom bigsize
            (dst.data + ind dst (fillTi P r c.i ti)) (frm.data + ind frm c.i) s)
      else .done s

/-- One pass of the outer loop body at odometer state `ci`: the new `ti` and the new state. -/
def bodyStep {σ : Type} (call : σ → Int → Int → σ) (frm : TensorRef) (P : Permutation)
    (dst : TensorRef) (r bigsize : Nat) (stepto stepfrom : Int)
    (acc : List Int × σ) (ci : List Int) : List Int × σ :=
  (fillTi P r ci acc.1,
   innerPlain call stepto stepfrom bigsize
     (dst.data + ind dst (fillTi P r ci acc.1)) (frm.data + ind frm ci) acc.2)

/-- The callable applied to a list of (destination address, source address) pairs, in order. -/
def applyPairs {σ : Type} (call : σ → Int → Int → σ) (s : σ) (L : List (Int × Int)) : σ :=
  L.foldl (fun s p => call s p.1 p.2) s

/-! ## Auxiliary definitions: index vectors and cells -/

/-- An index vector within the extents of a view. -/
def InRange (t : TensorRef) (i : List Int) : Prop :=
  i.length = t.r ∧ ∀ j, j < t.r → 0 ≤ i.getD j 0 ∧ i.getD j 0 < (t.extent j : Int)

instance (t : TensorRef) (i : List Int) : Decidable (InRange t i) := by
  unfold InRange; exact inferInstance

/-- The destination index vector of a source index vector: what lines 106-107 leave in `ti`
when started from zeros. -/
def permIdx (P : Permutation) (i : List Int) : List Int :=
  fillTi P P.size i (List.replicate P.size 0)

/-- The two addresses that belong to a source index vector. -/
def cellPair (frm : TensorRef) (P : Permutation) (dst : TensorRef) (i : List Int) : Int × Int :=
  (dst.data + ind dst (permIdx P i), frm.data + ind frm i)

/-- The source index vectors in the order in which the engine reaches them: odometer states
with the big axis at 0, and for each of them the big axis walked upwards. -/
def visitOrder (frm : TensorRef) : List (List Int) :=
  (box (List.replicate frm.r 0) (lastsOf frm frm.r (findBig frm frm.r).1)).flatMap
    (fun c => List.map (fun b : Nat => c.set (findBig frm frm.r).1 (b : Int))
      (List.range (findBig frm frm.r).2))

/-- All index vectors within the extents of a view, in the order of the engine. -/
def allIdx (frm : TensorRef) : List (List Int) :=
  if frm.r = 0 then [[]] else visitOrder frm

/-- The cells of one call of the engine: for every source index vector the destination
address and the source address, in the order of the engine. -/
def cells (frm : TensorRef) (P : Permutation) (dst : TensorRef) : List (Int × Int) :=
  List.map (cellPair frm P dst) (allIdx frm)

/-! ## Auxiliary definitions: valid inputs -/

/-- Every axis of the view has a positive extent. -/
def PosExtents (t : TensorRef) : Prop := ∀ j, j < t.r → 0 < t.extent j

instance (t : TensorRef) : Decidable (PosExtents t) := by
  unfold PosExtents; exact inferInstance

/-- The shape invariants of §3: the permutation is a bijection on the axes of the source,
source and destination have the same rank, the extents are positive, and the destination
extent at axis `P.dest j` is the source extent at axis `j`. -/
def ValidShape (frm : TensorRef) (P : Permutation) (dst : TensorRef) : Prop :=
  P.size = frm.r ∧ dst.r = frm.r ∧ P.IsBijection ∧ PosExtents frm ∧
    ∀ j, j < frm.r → dst.extent (P.dest j) = frm.extent j

instance (frm : TensorRef) (P : Permutation) (dst : TensorRef) :
    Decidable (ValidShape frm P dst) := by
  unfold ValidShape; exact inferInstance

/-- The index-to-offset map of a view is injective on the index vectors within its extents. -/
def OffsetsInjective (t : TensorRef) : Prop :=
  ∀ i j, InRange t i → InRange t j → ind t i = ind t j → i = j

/-- No element of the destination view shares its address with an element of the source
view. -/
def NoOverlap (frm dst : TensorRef) : Prop :=
  ∀ i t, InRange frm i → InRange dst t → dst.data + ind dst t ≠ frm.data + ind frm i

/-- Every element of the view lies within the first `size()` slots of its storage. -/
def InBounds (t : TensorRef) : Prop :=
  ∀ i, InRange t i → 0 ≤ ind t i ∧ ind t i < (t.size : Int)

/-- The array the allocator returns for this call is newly owned and of the requested shape:
its extents are the requested ones, distinct index vectors have distinct addresses, and no
address is shared with the source. -/
def FreshAlloc (alloc : List IndStr → TensorRef) (frm : TensorRef) (P : Permutation) : Prop :=
  List.map IndStr.ext (alloc (newRange frm P)).range = List.map IndStr.ext (newRange frm P) ∧
  OffsetsInjective (alloc (newRange frm P)) ∧ NoOverlap frm (alloc (newRange frm P))

/-! ## Auxiliary definitions: the examples -/

/-- The state of a normal return. -/
def Result.state? {σ : Type} : Result σ → Option σ
  | .done s => some s
  | _ => none

/-- Storage holding the given values at the addresses `base, base+1, ...`, and `d`
elsewhere. -/
def memOfList {α : Type} (base : Int) (vals : List α) (d : α) : Mem α :=
  fun a => if base ≤ a then vals.getD (a - base).toNat d else d

/-- The source of the end-to-end example of §8: extents (2,3), strides (3,1), at address 0. -/
def exFrm : TensorRef := ⟨0, [⟨2, 3⟩, ⟨3, 1⟩]⟩

/-- The destination of the end-to-end example: extents (3,2), strides (2,1), at address 6. -/
def exDst : TensorRef := ⟨6, [⟨3, 2⟩, ⟨2, 1⟩]⟩

/-- The permutation of the end-to-end example: it swaps the two axes. -/
def exP : Permutation := ⟨[1, 0]⟩

/-- The identity permutation on two axes. -/
def exId : Permutation := ⟨[0, 1]⟩

/-- The storage of the end-to-end example: the source values 1..6, zeros after them. -/
def exMem : Mem Int := memOfList 0 [1, 2, 3, 4, 5, 6] 0

/-- The storage of the accumulate example of §8: the source filled with 5, the destination
filled with 10. -/
def exMemAcc : Mem Int := memOfList 0 [5, 5, 5, 5, 5, 5] 10

/-- A destination of the wrong shape for `exFrm` under `exP`: extents (2,3) again. -/
def exBadDst : TensorRef := ⟨6, [⟨2, 3⟩, ⟨3, 1⟩]⟩

/-- A rank-0 source: one element, at address 0. -/
def exScalarFrm : TensorRef := ⟨0, []⟩

/-- A rank-0 destination: one element, at address 1. -/
def exScalarDst : TensorRef := ⟨1, []⟩

/-- Storage with the source scalar 5 at address 0 and the destination scalar 10 at address 1. -/
def exScalarMem : Mem Int := memOfList 0 [5, 10] 0

/-- The allocator of the examples, with the first axis fastest, placing the array at `base`. -/
def exAllocAt (base : Int) (rs : List IndStr) : TensorRef :=
  ⟨base, (rs.foldl (fun (acc : List IndStr × Int) a =>
      (acc.1 ++ [⟨a.ext, acc.2⟩], acc.2 * (a.ext : Int))) ([], 1)).1⟩

/-! ## Auxiliary definitions: order of the states, compact views, further examples -/

/-- A source with two axes of the same, largest extent: extents (3,3,2). -/
def exTieFrm : TensorRef := ⟨0, [⟨3, 1⟩, ⟨3, 3⟩, ⟨2, 9⟩]⟩

/-- The state at a throw. -/
def Result.thrownState? {σ : Type} : Result σ → Option σ
  | .thrown _ s => some s
  | _ => none

/-- The storage of the end-to-end example with other values in the destination: the source
values 1..6, then 70..75, and 9 elsewhere. -/
def exMemOther : Mem Int := memOfList 0 [1, 2, 3, 4, 5, 6, 70, 71, 72, 73, 74, 75] 9

/-- Mixed-radix order with axis 0 fastest: `c` comes before `d` when they differ and, at the
last axis where they differ, `c` has the smaller index. -/
def colexLt : List Int → List Int → Prop
  | x :: xs, y :: ys => colexLt xs ys ∨ (xs = ys ∧ x < y)
  | _, _ => False

/-- The identity permutation on three axes. -/
def exId3 : Permutation := ⟨[0, 1, 2]⟩

/-- A destination for `exTieFrm` under the identity: extents (3,3,2), at address 100. -/
def exTieDst : TensorRef := ⟨100, [⟨3, 1⟩, ⟨3, 3⟩, ⟨2, 9⟩]⟩

/-- A compact view: its index-to-offset map sends the in-range index vectors one-to-one onto
`[0, size())`. -/
def Compact (t : TensorRef) : Prop :=
  InBounds t ∧ OffsetsInjective t ∧
    ∀ o : Int, 0 ≤ o → o < (t.size : Int) → ∃ i, InRange t i ∧ ind t i = o

/-- A permutation of three axes: axis 0 to 1, axis 1 to 2, axis 2 to 0. -/
def exP3 : Permutation := ⟨[1, 2, 0]⟩

/-- A permutation of three axes: it swaps axes 0 and 1. -/
def exQ3 : Permutation := ⟨[1, 0, 2]⟩

/-- The composition of `exP3` and then `exQ3`: axis 0 stays, axes 1 and 2 are swapped. -/
def exR3 : Permutation := ⟨[0, 2, 1]⟩

/-- Storage holding 1..18 at the addresses 0..17 and 0 elsewhere. -/
def exMem18 : Mem Int :=
  memOfList 0 [1, 2, 3, 4, 5, 6, 7, 8, 9, 10, 11, 12, 13, 14, 15, 16, 17, 18] 0

/-! ## The checked build with the dereference test of its pointers as a parameter -/

/-- The inner loop of lines 111-118 in the checked build, with the dereference test of the
pointers built by `MAKE_SAFE_PTR3` at lines 109-110 (the macro is defined in
`util/safe_ptr.h`) taken as the parameter `chk`: `chk t a` says whether the pointer built
for the view `t` lets the dereference of the address `a` through. `innerLoop true` is the
instance `chk = safeDeref true`. -/
def innerLoopWith {σ : Type} (chk : TensorRef → Int → Bool) (call : σ → Int → Int → σ)
    (frm dst : TensorRef) (stepto stepfrom : Int) : Nat → Int → Int → σ → Result σ
  | 0, _, _, s => .done s
  | n + 1, pto, pfrom, s =>
      if chk dst pto && chk frm pfrom then
        innerLoopWith chk call frm dst stepto stepfrom n (pto + stepto) (pfrom + stepfrom)
          (call s pto pfrom)
      else .thrown "SafePtr: offset out of range" s

/-- The outer loop of lines 104-119 over `innerLoopWith`. -/
def outerLoopWith {σ : Type} (chk : TensorRef → Int → Bool) (call : σ → Int → Int → σ)
    (frm : TensorRef) (P : Permutation) (dst : TensorRef) (r bigsize : Nat)
    (stepto stepfrom : Int) : Nat → GCounter → List Int → σ → Result σ
  | 0, _, _, _ => .outOfFuel
  | fuel + 1, c, ti, s =>
      if c.notDone then
        match innerLoopWith chk call frm dst stepto stepfrom bigsize
            (dst.data + ind dst (fillTi P r c.i ti)) (frm.data + ind frm c.i) s with
        | .done s' =>
            outerLoopWith chk call frm P dst r bigsize stepto stepfrom fuel c.advance
              (fillTi P r c.i ti) s'
        | .thrown msg s' => .thrown msg s'
        | .outOfFuel => .outOfFuel
      else .done s

/-- The engine `permute(from, P, to, func)` (lines 56-120) of the checked build, with the
dereference test of its pointers as the parameter `chk`: the checks of lines 65-74, the
rank-0 branch of lines 76-80 on plain pointers, and the loops. `permute true` is the
instance `chk = safeDeref true`. -/
def permuteChecked {σ : Type} (chk : TensorRef → Int → Bool) (call : σ → Int → Int → σ)
    (fuel : Nat) (frm : TensorRef) (P : Permutation) (dst : TensorRef) (s : σ) : Result σ :=
  match shapeCheck frm P dst with
  | some msg => .thrown msg s
  | none =>
    if P.size = 0 then .done (call s dst.data frm.data)
    else
      outerLoopWith chk call frm P dst P.size (findBig frm P.size).2
        (dst.stride (P.dest (findBig frm P.size).1)) (frm.stride (findBig frm P.size).1)
        fuel (mkCounter frm P.size (findBig frm P.size).1) (List.replicate P.size 0) s

/-! ## Integer ranges and the odometer -/

theorem upFrom_nil {x l : Int} (h : l < x) : upFrom x l = [] := by
  have : (l + 1 - x).toNat = 0 := by omega
  simp [upFrom, this]

theorem upFrom_cons {x l : Int} (h : x ≤ l) : upFrom x l = x :: upFrom (x + 1) l := by
  have e : (l + 1 - x).toNat = (l + 1 - (x + 1)).toNat + 1 := by omega
  unfold upFrom
  rw [e, List.range_succ_eq_map]
  simp only [List.map_cons, List.map_map]
  congr 1
  · simp
  · apply List.map_congr_left
    intro k _
    simp only [Function.comp_apply, Nat.succ_eq_add_one, Nat.cast_add, Nat.cast_one]
    omega

theorem mem_upFrom {x l v : Int} : v ∈ upFrom x l ↔ x ≤ v ∧ v ≤ l := by
  unfold upFrom
  simp only [List.mem_map, List.mem_range]
  constructor
  · rintro ⟨k, hk, rfl⟩
    omega
  · rintro ⟨h1, h2⟩
    refine ⟨(v - x).toNat, ?_, ?_⟩
    all_goals omega

theorem nodup_upFrom (x l : Int) : (upFrom x l).Nodup := by
  unfold upFrom
  apply List.Nodup.map
  · intro a b h; simpa using h
  · exact List.nodup_range _

theorem carry_after_false : ∀ (i f l : List Int), (GCounter.carry i f l).2 = false →
    after i f l = (GCounter.carry i f l).1 :: after (GCounter.carry i f l).1 f l
  | [], _, _ => by simp [GCounter.carry]
  | _ :: _, [], _ => by simp [GCounter.carry]
  | _ :: _, _ :: _, [] => by simp [GCounter.carry]
  | x :: xs, f :: fs, l :: ls => by
      intro h
      by_cases hx : x + 1 ≤ l
      · simp only [GCounter.carry, hx, if_true, after]
        rw [upFrom_cons hx]; simp
      · simp only [GCounter.carry, hx, if_false] at h ⊢
        have ih := carry_after_false xs fs ls h
        simp only [after]
        rw [ih, upFrom_nil (by omega : l < x + 1)]
        simp only [List.map_nil, List.nil_append, List.flatMap_cons, axisVals, List.map_cons,
          List.cons_append]

theorem carry_after_true : ∀ (i f l : List Int), (GCounter.carry i f l).2 = true →
    after i f l = []
  | [], _, _ => by simp [after]
  | _ :: _, [], _ => by simp [after]
  | _ :: _, _ :: _, [] => by simp [after]
  | x :: xs, f :: fs, l :: ls => by
      intro h
      by_cases hx : x + 1 ≤ l
      · simp [GCounter.carry, hx] at h
      · simp only [GCounter.carry, hx, if_false] at h
        have ih := carry_after_true xs fs ls h
        simp only [after]
        rw [ih, upFrom_nil (by omega : l < x + 1)]
        simp

theorem outerPlain_done {σ : Type} (call : σ → Int → Int → σ) (frm : TensorRef)
    (P : Permutation) (dst : TensorRef) (r bigsize : Nat) (stepto stepfrom : Int) :
    ∀ (fuel : Nat) (c : GCounter) (ti : List Int) (s : σ), c.terminal = false →
      (after c.i c.first c.last).length + 1 < fuel →
      outerPlain call frm P dst r bigsize stepto stepfrom fuel c ti s =
        .done ((c.i :: after c.i c.first c.last).foldl
          (bodyStep call frm P dst r bigsize stepto stepfrom) (ti, s)).2 := by
  intro fuel
  induction fuel with
  | zero => intro c ti s _ h; omega
  | succ fuel ih =>
    intro c ti s hc hf
    have hnd : c.notDone = true := by simp [GCounter.notDone, hc]
    rw [outerPlain, if_pos hnd]
    cases hcar : (GCounter.carry c.i c.first c.last).2 with
    | true =>
      rw [carry_after_true _ _ _ hcar] at hf ⊢
      obtain ⟨k, rfl⟩ : ∃ k, fuel = k + 1 := ⟨fuel - 1, by simp at hf; omega⟩
      have hnd2 : c.advance.notDone = false := by
        simp [GCounter.notDone, GCounter.advance, hcar]
      rw [outerPlain, hnd2]
      simp [bodyStep]
    | false =>
      have hadv : c.advance.terminal = false := by simp [GCounter.advance, hc, hcar]
      have hA := carry_after_false _ _ _ hcar
      have := ih c.advance (fillTi P r c.i ti)
        (innerPlain call stepto stepfrom bigsize
            (dst.data + ind dst (fillTi P r c.i ti)) (frm.data + ind frm c.i) s) hadv
        (by
          rw [hA] at hf
          simpa [GCounter.advance] using hf)
      rw [this]
      conv_rhs => rw [hA]
      simp [GCounter.advance, bodyStep]

theorem first_cons_after : ∀ (fs ls : List Int), fs.length = ls.length →
    fs :: after fs fs ls = box fs ls
  | [], [] => by simp [after, box]
  | [], _ :: _ => by simp
  | _ :: _, [] => by simp
  | f :: fs, l :: ls => by
      intro h
      have ih := first_cons_after fs ls (by simpa using h)
      simp only [after, box, ← ih, List.flatMap_cons, axisVals, List.map_cons, List.cons_append]

theorem mem_axisVals {f l v : Int} : v ∈ axisVals f l ↔ v = f ∨ (f + 1 ≤ v ∧ v ≤ l) := by
  simp [axisVals, mem_upFrom]

theorem nodup_axisVals (f l : Int) : (axisVals f l).Nodup := by
  unfold axisVals
  rw [List.nodup_cons]
  refine ⟨?_, nodup_upFrom _ _⟩
  rw [mem_upFrom]; omega

theorem mem_box : ∀ (fs ls t : List Int), fs.length = ls.length →
    (t ∈ box fs ls ↔ t.length = fs.length ∧
      ∀ j, j < fs.length → t.getD j 0 ∈ axisVals (fs.getD j 0) (ls.getD j 0))
  | [], [], t => by
      intro _
      simp [box]
  | [], _ :: _, _ => by simp
  | _ :: _, [], _ => by simp
  | f :: fs, l :: ls, t => by
      intro h
      have ih := fun t => mem_box fs ls t (by simpa using h)
      simp only [box, List.mem_flatMap, List.mem_map]
      constructor
      · rintro ⟨u, hu, v, hv, rfl⟩
        rw [ih] at hu
        refine ⟨by simp [hu.1], ?_⟩
        intro j hj
        cases j with
        | zero => simpa using hv
        | succ j => simpa using hu.2 j (by simpa using hj)
      · rintro ⟨hl, hj⟩
        cases t with
        | nil => simp at hl
        | cons v u =>
          refine ⟨u, ?_, v, ?_, rfl⟩
          · rw [ih]
            refine ⟨by simpa using hl, ?_⟩
            intro j hj2
            simpa using hj (j + 1) (by simpa using hj2)
          · simpa using hj 0 (by simp)

theorem nodup_box : ∀ (fs ls : List Int), (box fs ls).Nodup
  | [], [] => by simp [box]
  | [], _ :: _ => by simp [box]
  | _ :: _, [] => by simp [box]
  | f :: fs, l :: ls => by
      have ih := nodup_box fs ls
      simp only [box]
      rw [List.nodup_flatMap]
      refine ⟨?_, ?_⟩
      · intro t _
        apply List.Nodup.map
        · intro a b hab; simpa using hab
        · exact nodup_axisVals f l
      · refine List.Pairwise.imp_of_mem ?_ ih
        intro a b _ _ hab
        simp only [Function.onFun, List.disjoint_left, List.mem_map]
        rintro x ⟨v, _, rfl⟩ ⟨w, _, hw⟩
        apply hab
        simp at hw
        exact hw.2.symm

/-! ## Lists updated in a loop -/

theorem getD_set {α : Type} (l : List α) (i j : Nat) (a d : α) :
    (l.set i a).getD j d = if i = j ∧ i < l.length then a else l.getD j d := by
  simp only [List.getD_eq_getElem?_getD, List.getElem?_set]
  by_cases h : i = j
  · subst h
    by_cases h2 : i < l.length
    · simp [h2]
    · simp [h2, List.getElem?_eq_none (Nat.le_of_not_lt h2)]
  · simp [h]

theorem length_foldl_set {α : Type} (L : List Nat) (p : Nat → Nat) (g : Nat → α) (t : List α) :
    (L.foldl (fun t j => t.set (p j) (g j)) t).length = t.length := by
  induction L generalizing t with
  | nil => rfl
  | cons a L ih => simp [List.foldl_cons, ih]

/-- After `k` rounds of `t[p j] = g j` with `p` injective below `k`, slot `p j` holds `g j`. -/
theorem getD_foldl_set {α : Type} (p : Nat → Nat) (g : Nat → α) (t : List α) (d : α) (k : Nat)
    (hp : ∀ j, j < k → p j < t.length)
    (hinj : ∀ j, j < k → ∀ j', j' < k → p j = p j' → j = j') :
    ∀ j, j < k → ((List.range k).foldl (fun t j => t.set (p j) (g j)) t).getD (p j) d = g j := by
  induction k with
  | zero => intro j hj; omega
  | succ k ih =>
    intro j hj
    rw [List.range_succ, List.foldl_append]
    simp only [List.foldl_cons, List.foldl_nil]
    rw [getD_set, length_foldl_set]
    by_cases hjk : j = k
    · subst hjk
      simp [hp j hj]
    · have hne : p k ≠ p j := by
        intro h
        exact hjk (hinj j hj k (by omega) h.symm)
      simp only [hne, false_and, if_false]
      exact ih (fun j hj => hp j (by omega))
        (fun a ha b hb => hinj a (by omega) b (by omega)) j (by omega)

theorem foldl_set_range {α : Type} (g : Nat → α) (t : List α) :
    (List.range t.length).foldl (fun t j => t.set j (g j)) t = List.map g (List.range t.length) := by
  apply List.ext_getElem
  · exact (length_foldl_set (List.range t.length) id g t).trans (by simp)
  · intro n h1 h2
    have hn : n < t.length := by simpa using h2
    have := getD_foldl_set id g t (g 0) t.length (fun j hj => hj) (fun _ _ _ _ h => h) n hn
    simp only [id] at this
    rw [List.getD_eq_getElem _ _ h1] at this
    rw [this]; simp

/-! ## The odometer as the engine sets it up -/

theorem foldl_setInd_i (L : List Nat) (f l : Nat → Int) (c : GCounter) :
    (L.foldl (fun (c : GCounter) j => c.setInd j (f j) (l j)) c).i =
      L.foldl (fun t j => t.set j (f j)) c.i := by
  induction L generalizing c with
  | nil => rfl
  | cons a L ih => rw [List.foldl_cons, ih, List.foldl_cons]; rfl

theorem foldl_setInd_first (L : List Nat) (f l : Nat → Int) (c : GCounter) :
    (L.foldl (fun (c : GCounter) j => c.setInd j (f j) (l j)) c).first =
      L.foldl (fun t j => t.set j (f j)) c.first := by
  induction L generalizing c with
  | nil => rfl
  | cons a L ih => rw [List.foldl_cons, ih, List.foldl_cons]; rfl

theorem foldl_setInd_last (L : List Nat) (f l : Nat → Int) (c : GCounter) :
    (L.foldl (fun (c : GCounter) j => c.setInd j (f j) (l j)) c).last =
      L.foldl (fun t j => t.set j (l j)) c.last := by
  induction L generalizing c with
  | nil => rfl
  | cons a L ih => rw [List.foldl_cons, ih, List.foldl_cons]; rfl

theorem foldl_setInd_terminal (L : List Nat) (f l : Nat → Int) (c : GCounter) :
    (L.foldl (fun (c : GCounter) j => c.setInd j (f j) (l j)) c).terminal = c.terminal := by
  induction L generalizing c with
  | nil => rfl
  | cons a L ih => rw [List.foldl_cons, ih]; rfl

theorem mkCounter_eq (frm : TensorRef) (r bigind : Nat) (hr : 0 < r) :
    mkCounter frm r bigind =
      ⟨List.replicate r 0, List.replicate r 0, lastsOf frm r bigind, false⟩ := by
  have hr1 : r - 1 + 1 = r := by omega
  have hz : List.map (fun _ : Nat => (0 : Int)) (List.range r) = List.replicate r 0 := by
    apply List.ext_getElem <;> simp
  have hset : (List.replicate r (0 : Int)).set bigind 0 = List.replicate r 0 := by
    apply List.ext_getElem
    · simp
    · intro n h1 h2
      simp [List.getElem_set]
  have key : ∀ g : Nat → Int, (List.range r).foldl (fun t j => t.set j (g j))
      (List.replicate r (0 : Int)) = List.map g (List.range r) := by
    intro g
    have := foldl_set_range g (List.replicate r (0 : Int))
    simpa using this
  unfold mkCounter GCounter.create
  rw [hr1]
  have e := foldl_setInd_i (List.range r) (fun _ => 0) (fun i => (frm.extent i : Int) - 1)
    ⟨List.replicate r 0, List.replicate r 0, List.replicate r 0, false⟩
  have e2 := foldl_setInd_first (List.range r) (fun _ => 0) (fun i => (frm.extent i : Int) - 1)
    ⟨List.replicate r 0, List.replicate r 0, List.replicate r 0, false⟩
  have e3 := foldl_setInd_last (List.range r) (fun _ => 0) (fun i => (frm.extent i : Int) - 1)
    ⟨List.replicate r 0, List.replicate r 0, List.replicate r 0, false⟩
  have e4 := foldl_setInd_terminal (List.range r) (fun _ => 0)
    (fun i => (frm.extent i : Int) - 1)
    ⟨List.replicate r 0, List.replicate r 0, List.replicate r 0, false⟩
  simp only [key] at e e2 e3
  generalize (List.range r).foldl
    (fun (c : GCounter) i => c.setInd i 0 ((frm.extent i : Int) - 1))
    ⟨List.replicate r 0, List.replicate r 0, List.replicate r 0, false⟩ = X at e e2 e3 e4
  obtain ⟨xi, xf, xl, xt⟩ := X
  simp only at e e2 e3 e4
  subst e e2 e3 e4
  simp only [GCounter.setInd, hz, hset, lastsOf]

/-! ## Permuted index vectors and offsets -/

theorem Permutation.exists_dest_eq {P : Permutation} (hP : P.IsBijection) :
    ∀ k, k < P.size → ∃ j, j < P.size ∧ P.dest j = k := by
  intro k hk
  have himg : (Finset.range P.size).image P.dest = Finset.range P.size := by
    apply Finset.eq_of_subset_of_card_le
    · intro x hx
      rw [Finset.mem_image] at hx
      obtain ⟨j, hj, rfl⟩ := hx
      exact Finset.mem_range.2 (hP.1 j (Finset.mem_range.1 hj))
    · rw [Finset.card_image_of_injOn]
      intro a ha b hb hab
      exact hP.2 a (Finset.mem_range.1 ha) b (Finset.mem_range.1 hb) hab
  have : k ∈ (Finset.range P.size).image P.dest := by
    rw [himg]; exact Finset.mem_range.2 hk
  rw [Finset.mem_image] at this
  obtain ⟨j, hj, rfl⟩ := this
  exact ⟨j, Finset.mem_range.1 hj, rfl⟩

theorem length_fillTi (P : Permutation) (r : Nat) (ci ti : List Int) :
    (fillTi P r ci ti).length = ti.length :=
  length_foldl_set (List.range r) P.dest (fun j => ci.getD j 0) ti

theorem getD_fillTi {P : Permutation} (hP : P.IsBijection) (ci ti : List Int)
    (hti : ti.length = P.size) :
    ∀ j, j < P.size → (fillTi P P.size ci ti).getD (P.dest j) 0 = ci.getD j 0 :=
  getD_foldl_set P.dest (fun j => ci.getD j 0) ti 0 P.size
    (fun j hj => by rw [hti]; exact hP.1 j hj) hP.2

/-- A vector of the right length with `t[P.dest j] = i[j]` for all `j` is the one the engine
computes. -/
theorem eq_of_getD_dest {P : Permutation} (hP : P.IsBijection) (t u : List Int)
    (ht : t.length = P.size) (hu : u.length = P.size)
    (h : ∀ j, j < P.size → t.getD (P.dest j) 0 = u.getD (P.dest j) 0) : t = u := by
  apply List.ext_getElem (ht.trans hu.symm)
  intro n h1 h2
  obtain ⟨j, hj, rfl⟩ := Permutation.exists_dest_eq hP n (ht ▸ h1)
  have := h j hj
  rwa [List.getD_eq_getElem _ _ h1, List.getD_eq_getElem _ _ h2] at this

theorem fillTi_eq_permIdx {P : Permutation} (hP : P.IsBijection) (ci ti : List Int)
    (hti : ti.length = P.size) : fillTi P P.size ci ti = permIdx P ci := by
  apply eq_of_getD_dest hP
  · rw [length_fillTi, hti]
  · rw [permIdx, length_fillTi]; simp
  · intro j hj
    rw [getD_fillTi hP ci ti hti j hj, permIdx, getD_fillTi hP ci _ (by simp) j hj]

theorem length_permIdx (P : Permutation) (i : List Int) : (permIdx P i).length = P.size := by
  rw [permIdx, length_fillTi]; simp

theorem getD_permIdx {P : Permutation} (hP : P.IsBijection) (i : List Int) :
    ∀ j, j < P.size → (permIdx P i).getD (P.dest j) 0 = i.getD j 0 :=
  getD_fillTi hP i _ (by simp)

theorem zipWith_sum_eq : ∀ (xs : List Int) (as : List IndStr), xs.length = as.length →
    (List.zipWith (fun x (a : IndStr) => x * a.str) xs as).sum =
      ∑ j in Finset.range as.length, xs.getD j 0 * (as.getD j default).str
  | [], [], _ => by simp
  | [], _ :: _, h => by simp at h
  | _ :: _, [], h => by simp at h
  | x :: xs, a :: as, h => by
      have ih := zipWith_sum_eq xs as (by simpa using h)
      simp only [List.zipWith_cons_cons, List.sum_cons, List.length_cons, ih]
      rw [Finset.sum_range_succ']
      simp [add_comm]

/-- The offset of an index vector is the sum of index times stride over the axes. -/
theorem ind_eq_sum (t : TensorRef) (idx : List Int) (h : idx.length = t.r) :
    ind t idx = ∑ j in Finset.range t.r, idx.getD j 0 * t.stride j := by
  unfold ind TensorRef.stride TensorRef.r
  exact zipWith_sum_eq idx t.range h

/-- The destination offset of a source index vector, axis by axis of the source. -/
theorem ind_permIdx {P : Permutation} (hP : P.IsBijection) (dst : TensorRef)
    (hr : dst.r = P.size) (i : List Int) :
    ind dst (permIdx P i) = ∑ j in Finset.range P.size, i.getD j 0 * dst.stride (P.dest j) := by
  rw [ind_eq_sum dst _ (by rw [length_permIdx, hr]), hr]
  have himg : (Finset.range P.size).image P.dest = Finset.range P.size := by
    ext k
    simp only [Finset.mem_image, Finset.mem_range]
    constructor
    · rintro ⟨j, hj, rfl⟩; exact hP.1 j hj
    · intro hk
      obtain ⟨j, hj, e⟩ := Permutation.exists_dest_eq hP k hk
      exact ⟨j, hj, e⟩
  conv_lhs => rw [← himg]
  rw [Finset.sum_image (fun a ha b hb hab =>
    hP.2 a (Finset.mem_range.1 ha) b (Finset.mem_range.1 hb) hab)]
  apply Finset.sum_congr rfl
  intro j hj
  rw [getD_permIdx hP i j (Finset.mem_range.1 hj)]

/-- Moving one component of an index vector moves a weighted sum by the weight of that axis. -/
theorem sum_set (c : List Int) (w : Nat → Int) (r k : Nat) (b : Int) (hk : k < r)
    (hc : c.length = r) :
    ∑ j in Finset.range r, (c.set k b).getD j 0 * w j =
      ∑ j in Finset.range r, c.getD j 0 * w j + (b - c.getD k 0) * w k := by
  have h1 : ∀ j ∈ Finset.range r, (c.set k b).getD j 0 * w j =
      c.getD j 0 * w j + (if j = k then (b - c.getD k 0) * w k else 0) := by
    intro j _
    rw [getD_set]
    by_cases hjk : j = k
    · subst hjk
      simp only [true_and, hc, hk, if_true]
      ring
    · have : ¬ (k = j ∧ k < c.length) := fun h => hjk h.1.symm
      simp [this, hjk]
  rw [Finset.sum_congr rfl h1, Finset.sum_add_distrib, Finset.sum_ite_eq']
  simp [hk]

/-! ## The engine as one pass over a list of cells -/

theorem innerPlain_eq {σ : Type} (call : σ → Int → Int → σ) (stepto stepfrom : Int) :
    ∀ (n : Nat) (pto pfrom : Int) (s : σ),
      innerPlain call stepto stepfrom n pto pfrom s =
        applyPairs call s (List.map
          (fun b : Nat => (pto + (b : Int) * stepto, pfrom + (b : Int) * stepfrom))
          (List.range n)) := by
  intro n
  induction n with
  | zero => intro pto pfrom s; rfl
  | succ n ih =>
    intro pto pfrom s
    rw [innerPlain, ih, List.range_succ_eq_map]
    simp only [applyPairs, List.map_cons, List.foldl_cons, List.map_map, Nat.cast_zero,
      zero_mul, add_zero]
    congr 1
    apply List.map_congr_left
    intro b _
    simp only [Function.comp_apply, Nat.succ_eq_add_one, Nat.cast_add, Nat.cast_one,
      Prod.mk.injEq]
    constructor <;> ring

theorem findBig_fold (frm : TensorRef) : ∀ (k : Nat),
    ((List.range k).foldl
      (fun (acc : Nat × Nat) k =>
        if acc.2 < frm.extent (k + 1) then (k + 1, frm.extent (k + 1)) else acc)
      (0, frm.extent 0)).1 ≤ k ∧
    ((List.range k).foldl
      (fun (acc : Nat × Nat) k =>
        if acc.2 < frm.extent (k + 1) then (k + 1, frm.extent (k + 1)) else acc)
      (0, frm.extent 0)).2 =
    frm.extent ((List.range k).foldl
      (fun (acc : Nat × Nat) k =>
        if acc.2 < frm.extent (k + 1) then (k + 1, frm.extent (k + 1)) else acc)
      (0, frm.extent 0)).1 := by
  intro k
  induction k with
  | zero => simp
  | succ k ih =>
    rw [List.range_succ, List.foldl_append]
    simp only [List.foldl_cons, List.foldl_nil]
    split
    · simp
    · exact ⟨by omega, ih.2⟩

/-- The big axis is an axis, and `bigsize` is its extent. -/
theorem findBig_spec (frm : TensorRef) (r : Nat) (hr : 0 < r) :
    (findBig frm r).1 < r ∧ (findBig frm r).2 = frm.extent (findBig frm r).1 := by
  have := findBig_fold frm (r - 1)
  unfold findBig
  exact ⟨by omega, this.2⟩

theorem applyPairs_append {σ : Type} (call : σ → Int → Int → σ) (s : σ)
    (L M : List (Int × Int)) :
    applyPairs call s (L ++ M) = applyPairs call (applyPairs call s L) M := by
  simp [applyPairs]

/-- The offsets reached by stepping the pointers along the big axis are the offsets of the
index vectors with the big axis moved. -/
theorem cellPair_step {P : Permutation} (hP : P.IsBijection) (frm dst : TensorRef)
    (hr : P.size = frm.r) (hd : dst.r = frm.r) (big : Nat) (hbig : big < frm.r)
    (c : List Int) (hc : c.length = frm.r) (hc0 : c.getD big 0 = 0) (b : Nat) :
    (dst.data + ind dst (permIdx P c) + (b : Int) * dst.stride (P.dest big),
      frm.data + ind frm c + (b : Int) * frm.stride big) =
    cellPair frm P dst (c.set big (b : Int)) := by
  unfold cellPair
  rw [ind_permIdx hP dst (hd.trans hr.symm), ind_permIdx hP dst (hd.trans hr.symm),
    ind_eq_sum frm c hc, ind_eq_sum frm _ (by simpa using hc), hr,
    sum_set c (fun j => dst.stride (P.dest j)) frm.r big b hbig hc,
    sum_set c frm.stride frm.r big b hbig hc, hc0]
  simp only [sub_zero, Prod.mk.injEq]
  constructor <;> ring

theorem foldl_bodyStep {σ : Type} (call : σ → Int → Int → σ) {P : Permutation}
    (hP : P.IsBijection) (frm dst : TensorRef) (hr : P.size = frm.r) (hd : dst.r = frm.r)
    (big : Nat) (hbig : big < frm.r) (bigsize : Nat) :
    ∀ (V : List (List Int)), (∀ c ∈ V, c.length = frm.r ∧ c.getD big 0 = 0) →
      ∀ (ti : List Int) (s : σ), ti.length = frm.r →
      (V.foldl (bodyStep call frm P dst P.size bigsize (dst.stride (P.dest big))
          (frm.stride big)) (ti, s)).2 =
        applyPairs call s (List.map (cellPair frm P dst)
          (V.flatMap (fun c => List.map (fun b : Nat => c.set big (b : Int))
            (List.range bigsize)))) := by
  intro V
  induction V with
  | nil => intro _ ti s _; rfl
  | cons c V ih =>
    intro hV ti s hti
    have hc := hV c (List.mem_cons_self _ _)
    rw [List.foldl_cons, List.flatMap_cons, List.map_append, applyPairs_append]
    have hfill : fillTi P P.size c ti = permIdx P c := fillTi_eq_permIdx hP c ti (hti.trans hr.symm)
    have hstep : bodyStep call frm P dst P.size bigsize (dst.stride (P.dest big))
        (frm.stride big) (ti, s) c =
        (permIdx P c, applyPairs call s (List.map (cellPair frm P dst)
          (List.map (fun b : Nat => c.set big (b : Int)) (List.range bigsize)))) := by
      simp only [bodyStep, hfill, innerPlain_eq, List.map_map]
      congr 2
      apply List.map_congr_left
      intro b _
      exact cellPair_step hP frm dst hr hd big hbig c hc.1 hc.2 b
    rw [hstep]
    exact ih (fun c' hc' => hV c' (List.mem_cons_of_mem _ hc')) _ _
      ((length_permIdx P c).trans hr)

theorem length_lastsOf (frm : TensorRef) (r big : Nat) : (lastsOf frm r big).length = r := by
  simp [lastsOf]

theorem getD_lastsOf_big (frm : TensorRef) (r big : Nat) (h : big < r) :
    (lastsOf frm r big).getD big 0 = 0 := by
  unfold lastsOf
  rw [getD_set]
  simp [h]

theorem getD_lastsOf_ne (frm : TensorRef) (r big j : Nat) (hj : j < r) (h : j ≠ big) :
    (lastsOf frm r big).getD j 0 = (frm.extent j : Int) - 1 := by
  unfold lastsOf
  rw [getD_set]
  have : ¬ (big = j ∧ big < (List.map (fun j => (frm.extent j : Int) - 1) (List.range r)).length) :=
    fun hh => h hh.1.symm
  rw [if_neg this, List.getD_eq_getElem _ _ (by simpa using hj)]
  simp

theorem getD_replicate_zero (r j : Nat) : (List.replicate r (0 : Int)).getD j 0 = 0 := by
  by_cases h : j < r
  · rw [List.getD_eq_getElem _ _ (by simpa using h)]; simp
  · rw [List.getD_eq_default _ _ (by simpa using h)]

theorem axisVals_zero_zero : axisVals 0 0 = [0] := by
  simp [axisVals, upFrom]

/-- The odometer states of the engine: the big axis at 0, every other axis within its extent
(an axis of extent 0 is visited at index 0 all the same). -/
theorem mem_engine_box (frm : TensorRef) (big : Nat) (hbig : big < frm.r) (c : List Int) :
    c ∈ box (List.replicate frm.r 0) (lastsOf frm frm.r big) ↔
      c.length = frm.r ∧ c.getD big 0 = 0 ∧
      ∀ j, j < frm.r → j ≠ big →
        (c.getD j 0 = 0 ∨ (1 ≤ c.getD j 0 ∧ c.getD j 0 < (frm.extent j : Int))) := by
  rw [mem_box _ _ _ (by simp [length_lastsOf])]
  simp only [List.length_replicate, getD_replicate_zero, mem_axisVals, zero_add]
  constructor
  · rintro ⟨hl, h⟩
    refine ⟨hl, ?_, ?_⟩
    · have := h big hbig
      rw [getD_lastsOf_big frm frm.r big hbig] at this
      omega
    · intro j hj hne
      have := h j hj
      rw [getD_lastsOf_ne frm frm.r big j hj hne] at this
      omega
  · rintro ⟨hl, h0, h⟩
    refine ⟨hl, ?_⟩
    intro j hj
    by_cases hne : j = big
    · subst hne; exact Or.inl h0
    · rw [getD_lastsOf_ne frm frm.r big j hj hne]
      have := h j hj hne
      omega

/-- When every dereference goes through, the inner loop is the loop over plain pointers. -/
theorem innerLoop_of_safe {σ : Type} (DEBUG : Bool) (call : σ → Int → Int → σ)
    (frm dst : TensorRef) (stepto stepfrom : Int) :
    ∀ (n : Nat) (pto pfrom : Int) (s : σ),
      (∀ b : Nat, b < n → safeDeref DEBUG dst (pto + (b : Int) * stepto) = true ∧
        safeDeref DEBUG frm (pfrom + (b : Int) * stepfrom) = true) →
      innerLoop DEBUG call frm dst stepto stepfrom n pto pfrom s =
        .done (innerPlain call stepto stepfrom n pto pfrom s) := by
  intro n
  induction n with
  | zero => intro pto pfrom s _; rfl
  | succ n ih =>
    intro pto pfrom s h
    have h0 := h 0 (Nat.succ_pos n)
    simp only [Nat.cast_zero, zero_mul, add_zero] at h0
    rw [innerLoop, h0.1, h0.2, innerPlain]
    simp only [Bool.and_self, if_true]
    apply ih
    intro b hb
    have := h (b + 1) (Nat.succ_lt_succ hb)
    simp only [Nat.cast_add, Nat.cast_one] at this
    have e1 : pto + stepto + (b : Int) * stepto = pto + ((b : Int) + 1) * stepto := by ring
    have e2 : pfrom + stepfrom + (b : Int) * stepfrom = pfrom + ((b : Int) + 1) * stepfrom := by
      ring
    rw [e1, e2]
    exact this

theorem safeDeref_false (t : TensorRef) (a : Int) : safeDeref false t a = true := rfl

/-- In the unchecked build the outer loop is the loop over plain pointers. -/
theorem outerLoop_false {σ : Type} (call : σ → Int → Int → σ) (frm : TensorRef)
    (P : Permutation) (dst : TensorRef) (r bigsize : Nat) (stepto stepfrom : Int) :
    ∀ (fuel : Nat) (c : GCounter) (ti : List Int) (s : σ),
      outerLoop false call frm P dst r bigsize stepto stepfrom fuel c ti s =
        outerPlain call frm P dst r bigsize stepto stepfrom fuel c ti s := by
  intro fuel
  induction fuel with
  | zero => intro c ti s; rfl
  | succ fuel ih =>
    intro c ti s
    rw [outerLoop, outerPlain]
    split
    · rw [innerLoop_of_safe false call frm dst stepto stepfrom bigsize _ _ s
        (fun b _ => ⟨safeDeref_false _ _, safeDeref_false _ _⟩)]
      exact ih _ _ _
    · rfl

/-- With enough fuel the unchecked engine returns, and its effect is the callable applied to
the cells of `visitOrder`, in that order. -/
theorem permute_eq_applyPairs {σ : Type} (call : σ → Int → Int → σ) (fuel : Nat)
    (frm : TensorRef) (P : Permutation) (dst : TensorRef) (s : σ)
    (hP : P.IsBijection) (hr : P.size = frm.r) (hd : dst.r = frm.r) (hpos : 0 < frm.r)
    (hfuel : (box (List.replicate frm.r 0)
      (lastsOf frm frm.r (findBig frm frm.r).1)).length < fuel) :
    permute false call fuel frm P dst s =
      .done (applyPairs call s (List.map (cellPair frm P dst) (visitOrder frm))) := by
  have hbig := findBig_spec frm frm.r hpos
  have hne : P.size ≠ 0 := by omega
  unfold permute
  simp only [Bool.false_eq_true, if_false, hne]
  rw [hr, mkCounter_eq frm frm.r _ hpos]
  have hbox := first_cons_after (List.replicate frm.r 0)
    (lastsOf frm frm.r (findBig frm frm.r).1) (by simp [length_lastsOf])
  rw [outerLoop_false, outerPlain_done call frm P dst frm.r _ _ _ fuel _ _ s rfl (by
    simp only
    rw [← hbox] at hfuel
    simpa using hfuel)]
  simp only
  rw [hbox]
  have key := foldl_bodyStep call hP frm dst hr hd _ hbig.1 (findBig frm frm.r).2
    (box (List.replicate frm.r 0) (lastsOf frm frm.r (findBig frm frm.r).1)) (fun c hc => by
      rw [mem_engine_box frm _ hbig.1] at hc
      exact ⟨hc.1, hc.2.1⟩) (List.replicate frm.r 0) s (by simp)
  rw [hr] at key
  rw [key]
  rfl

theorem set_getD_self (i : List Int) (k : Nat) : i.set k (i.getD k 0) = i := by
  apply List.ext_getElem (by simp)
  intro n h1 h2
  rw [List.getElem_set]
  split
  · rename_i h; subst h
    rw [List.getD_eq_getElem _ _ h2]
  · rfl

theorem mem_visitOrder (frm : TensorRef) (hpos : 0 < frm.r) (hext : PosExtents frm)
    (i : List Int) : i ∈ visitOrder frm ↔ InRange frm i := by
  have hbig := findBig_spec frm frm.r hpos
  unfold visitOrder InRange
  simp only [List.mem_flatMap, List.mem_map, List.mem_range]
  constructor
  · rintro ⟨c, hc, b, hb, rfl⟩
    rw [mem_engine_box frm _ hbig.1] at hc
    refine ⟨by simpa using hc.1, ?_⟩
    intro j hj
    rw [getD_set]
    by_cases hjb : (findBig frm frm.r).1 = j
    · rw [if_pos ⟨hjb, by rw [hc.1]; exact hbig.1⟩]
      rw [hbig.2, hjb] at hb
      omega
    · rw [if_neg (fun h => hjb h.1)]
      have := hc.2.2 j hj (fun h => hjb h.symm)
      have := hext j hj
      omega
  · rintro ⟨hl, h⟩
    refine ⟨i.set (findBig frm frm.r).1 0, ?_, (i.getD (findBig frm frm.r).1 0).toNat, ?_, ?_⟩
    · rw [mem_engine_box frm _ hbig.1]
      refine ⟨by simpa using hl, ?_, ?_⟩
      · rw [getD_set]; simp [hl, hbig.1]
      · intro j hj hne
        rw [getD_set, if_neg (fun hh => hne hh.1.symm)]
        have := h j hj
        omega
    · have := h _ hbig.1
      rw [hbig.2]
      omega
    · have := h _ hbig.1
      rw [List.set_set, Int.toNat_of_nonneg this.1, set_getD_self]

theorem nodup_visitOrder (frm : TensorRef) (hpos : 0 < frm.r) : (visitOrder frm).Nodup := by
  have hbig := findBig_spec frm frm.r hpos
  unfold visitOrder
  rw [List.nodup_flatMap]
  refine ⟨?_, ?_⟩
  · intro c hc
    rw [mem_engine_box frm _ hbig.1] at hc
    apply List.Nodup.map_on _ (List.nodup_range _)
    intro a _ b _ hab
    have := congrArg (fun l : List Int => l.getD (findBig frm frm.r).1 0) hab
    simp only [getD_set, hc.1, hbig.1, and_self, if_true] at this
    exact_mod_cast this
  · refine List.Pairwise.imp_of_mem ?_ (nodup_box _ _)
    intro c c' hc hc' hne
    rw [mem_engine_box frm _ hbig.1] at hc hc'
    simp only [Function.onFun, List.disjoint_left, List.mem_map, List.mem_range]
    rintro x ⟨b, _, rfl⟩ ⟨b', _, hx⟩
    apply hne
    have := congrArg (fun l : List Int => l.set (findBig frm frm.r).1 0) hx
    simp only [List.set_set] at this
    have e1 := set_getD_self c (findBig frm frm.r).1
    have e2 := set_getD_self c' (findBig frm frm.r).1
    rw [hc.2.1] at e1
    rw [hc'.2.1] at e2
    rw [e1, e2] at this
    exact this.symm

theorem length_upFrom (x l : Int) : (upFrom x l).length = (l + 1 - x).toNat := by
  simp [upFrom]

theorem length_box : ∀ (fs ls : List Int), fs.length = ls.length →
    (box fs ls).length =
      ∏ j in Finset.range fs.length, (axisVals (fs.getD j 0) (ls.getD j 0)).length
  | [], [], _ => by simp [box]
  | [], _ :: _, h => by simp at h
  | _ :: _, [], h => by simp at h
  | f :: fs, l :: ls, h => by
      have ih := length_box fs ls (by simpa using h)
      have hc : (List.length ∘ fun t : List Int => List.map (fun v => v :: t) (axisVals f l)) =
          fun _ => (axisVals f l).length := by
        funext t; simp
      simp only [box, List.length_flatMap, hc, List.map_const', List.sum_replicate,
        smul_eq_mul, ih, List.length_cons]
      rw [Finset.prod_range_succ']
      simp

theorem size_eq_prod (t : TensorRef) : t.size = ∏ j in Finset.range t.r, t.extent j := by
  unfold TensorRef.size TensorRef.r TensorRef.extent
  generalize t.range = L
  induction L with
  | nil => simp
  | cons a L ih =>
    simp only [List.map_cons, List.prod_cons, List.length_cons, ih]
    rw [Finset.prod_range_succ']
    simp [mul_comm]

/-- The odometer has at most as many states as the source has elements. -/
theorem length_engine_box_le (frm : TensorRef) (big : Nat) (hbig : big < frm.r)
    (hext : PosExtents frm) :
    (box (List.replicate frm.r 0) (lastsOf frm frm.r big)).length ≤ frm.size := by
  rw [length_box _ _ (by simp [length_lastsOf]), size_eq_prod]
  simp only [List.length_replicate]
  apply Finset.prod_le_prod (fun _ _ => Nat.zero_le _)
  intro j hj
  have hj := Finset.mem_range.1 hj
  have hp := hext j hj
  rw [getD_replicate_zero]
  simp only [axisVals, List.length_cons, length_upFrom]
  by_cases hne : j = big
  · subst hne
    rw [getD_lastsOf_big frm frm.r j hj]
    simpa using hp
  · rw [getD_lastsOf_ne frm frm.r big j hj hne]
    omega

/-! ## Valid inputs -/

theorem mem_allIdx (frm : TensorRef) (hext : PosExtents frm) (i : List Int) :
    i ∈ allIdx frm ↔ InRange frm i := by
  unfold allIdx
  by_cases h : frm.r = 0
  · simp only [h, if_true, List.mem_singleton, InRange]
    constructor
    · rintro rfl; exact ⟨rfl, fun j hj => by omega⟩
    · rintro ⟨hl, _⟩; exact List.length_eq_zero.1 hl
  · rw [if_neg h]
    exact mem_visitOrder frm (Nat.pos_of_ne_zero h) hext i

theorem nodup_allIdx (frm : TensorRef) : (allIdx frm).Nodup := by
  unfold allIdx
  by_cases h : frm.r = 0
  · simp [h]
  · rw [if_neg h]
    exact nodup_visitOrder frm (Nat.pos_of_ne_zero h)

theorem Permutation.image_dest {P : Permutation} (hP : P.IsBijection) :
    (Finset.range P.size).image P.dest = Finset.range P.size := by
  ext k
  simp only [Finset.mem_image, Finset.mem_range]
  constructor
  · rintro ⟨j, hj, rfl⟩; exact hP.1 j hj
  · intro hk
    obtain ⟨j, hj, e⟩ := Permutation.exists_dest_eq hP k hk
    exact ⟨j, hj, e⟩

/-- The total element count is invariant under the permutation of the axes. -/
theorem size_eq_of_extents {frm dst : TensorRef} {P : Permutation} (hP : P.IsBijection)
    (hr : P.size = frm.r) (hd : dst.r = frm.r)
    (he : ∀ j, j < frm.r → dst.extent (P.dest j) = frm.extent j) : dst.size = frm.size := by
  rw [size_eq_prod, size_eq_prod, hd, ← hr]
  conv_lhs => rw [← Permutation.image_dest hP]
  rw [Finset.prod_image (fun a ha b hb hab =>
    hP.2 a (Finset.mem_range.1 ha) b (Finset.mem_range.1 hb) hab)]
  apply Finset.prod_congr rfl
  intro j hj
  exact he j (by rw [← hr]; exact Finset.mem_range.1 hj)

/-- The checks of the checked build pass when the shapes agree. -/
theorem shapeCheck_none {frm dst : TensorRef} {P : Permutation} (hP : P.IsBijection)
    (hr : P.size = frm.r) (hd : dst.r = frm.r)
    (he : ∀ j, j < frm.r → dst.extent (P.dest j) = frm.extent j) :
    shapeCheck frm P dst = none := by
  unfold shapeCheck
  rw [if_neg (by simpa using hr), if_neg (by simpa using hd),
    if_neg (by simpa using size_eq_of_extents hP hr hd he), if_neg]
  simp only [List.any_eq_true, List.mem_range, bne_iff_ne, ne_eq, not_exists, not_and,
    not_not]
  intro j hj
  exact he j (hr ▸ hj)

/-- When the ranks agree the unchecked engine returns once the fuel exceeds the number of
odometer states, and its effect is the callable applied to `cells`, in order. -/
theorem permute_done_of_states {σ : Type} (call : σ → Int → Int → σ)
    (fuel : Nat) (frm : TensorRef) (P : Permutation) (dst : TensorRef) (s : σ)
    (hP : P.IsBijection) (hr : P.size = frm.r) (hd : dst.r = frm.r)
    (hfuel : (box (List.replicate frm.r 0)
      (lastsOf frm frm.r (findBig frm frm.r).1)).length < fuel) :
    permute false call fuel frm P dst s = .done (applyPairs call s (cells frm P dst)) := by
  by_cases h0 : frm.r = 0
  · have hP0 : P.size = 0 := hr.trans h0
    have hperm : permIdx P [] = [] := List.length_eq_zero.1 ((length_permIdx P []).trans hP0)
    unfold permute
    simp only [Bool.false_eq_true, if_false, hP0, if_true, cells, allIdx, h0, List.map_cons,
      List.map_nil, applyPairs, List.foldl_cons, List.foldl_nil, cellPair, hperm]
    simp [ind]
  · have hpos' : 0 < frm.r := Nat.pos_of_ne_zero h0
    rw [permute_eq_applyPairs call fuel frm P dst s hP hr hd hpos' hfuel]
    simp only [cells, allIdx, h0, if_false]

/-- The odometer of a view with positive extents has at most as many states as the view has
elements. -/
theorem states_le_size (frm : TensorRef) (hpos : PosExtents frm) :
    (box (List.replicate frm.r 0) (lastsOf frm frm.r (findBig frm frm.r).1)).length ≤
      frm.size := by
  by_cases h0 : frm.r = 0
  · have h1 : frm.size = 1 := by
      rw [size_eq_prod, h0]; simp
    have h2 : lastsOf frm frm.r (findBig frm frm.r).1 = [] :=
      List.length_eq_zero.1 ((length_lastsOf _ _ _).trans h0)
    rw [h2, h0]
    simp only [List.replicate_zero, box, List.length_singleton]
    omega
  · have hpos' : 0 < frm.r := Nat.pos_of_ne_zero h0
    exact length_engine_box_le frm _ (findBig_spec frm frm.r hpos').1 hpos

/-- On a valid input the unchecked engine returns once the fuel exceeds the element count,
and its effect is the callable applied to `cells`, in order. -/
theorem permute_done {σ : Type} (call : σ → Int → Int → σ) (fuel : Nat)
    (frm : TensorRef) (P : Permutation) (dst : TensorRef) (s : σ)
    (hv : ValidShape frm P dst) (hfuel : frm.size < fuel) :
    permute false call fuel frm P dst s = .done (applyPairs call s (cells frm P dst)) :=
  permute_done_of_states call fuel frm P dst s hv.2.2.1 hv.1 hv.2.1
    (lt_of_le_of_lt (states_le_size frm hv.2.2.2.1) hfuel)

/-! ## The cells of a valid call -/

theorem inRange_permIdx {frm dst : TensorRef} {P : Permutation} (hv : ValidShape frm P dst)
    {i : List Int} (hi : InRange frm i) : InRange dst (permIdx P i) := by
  obtain ⟨hr, hd, hP, _, he⟩ := hv
  refine ⟨by rw [length_permIdx, hd, hr], ?_⟩
  intro k hk
  obtain ⟨j, hj, rfl⟩ := Permutation.exists_dest_eq hP k (by rw [hr, ← hd]; exact hk)
  rw [getD_permIdx hP i j hj, he j (hr ▸ hj)]
  exact hi.2 j (hr ▸ hj)

theorem permIdx_inj {P : Permutation} (hP : P.IsBijection) {i u : List Int}
    (hi : i.length = P.size) (hu : u.length = P.size) (h : permIdx P i = permIdx P u) :
    i = u := by
  apply List.ext_getElem (hi.trans hu.symm)
  intro n h1 h2
  have e1 := getD_permIdx hP i n (hi ▸ h1)
  have e2 := getD_permIdx hP u n (hi ▸ h1)
  rw [h, e2, List.getD_eq_getElem _ _ h1, List.getD_eq_getElem _ _ h2] at e1
  exact e1.symm

/-- Every destination index vector is the image of a source index vector. -/
theorem exists_inRange_permIdx {frm dst : TensorRef} {P : Permutation}
    (hv : ValidShape frm P dst) {t : List Int} (ht : InRange dst t) :
    ∃ i, InRange frm i ∧ permIdx P i = t := by
  obtain ⟨hr, hd, hP, _, he⟩ := hv
  have hget : ∀ j, j < frm.r →
      (List.map (fun j => t.getD (P.dest j) 0) (List.range frm.r)).getD j 0 =
        t.getD (P.dest j) 0 := by
    intro j hj
    rw [List.getD_eq_getElem _ _ (by simpa using hj)]
    simp
  refine ⟨List.map (fun j => t.getD (P.dest j) 0) (List.range frm.r), ⟨by simp, ?_⟩, ?_⟩
  · intro j hj
    rw [hget j hj, ← he j hj]
    exact ht.2 (P.dest j) (by rw [hd, ← hr]; exact hP.1 j (hr ▸ hj))
  · apply eq_of_getD_dest hP _ _ (length_permIdx P _) (by rw [ht.1, hd, hr])
    intro j hj
    rw [getD_permIdx hP _ j hj, hget j (hr ▸ hj)]

theorem mem_cells {frm dst : TensorRef} {P : Permutation} (hv : ValidShape frm P dst)
    {i : List Int} (hi : InRange frm i) : cellPair frm P dst i ∈ cells frm P dst :=
  List.mem_map_of_mem _ ((mem_allIdx frm hv.2.2.2.1 i).2 hi)

theorem exists_of_mem_cells {frm dst : TensorRef} {P : Permutation}
    (hv : ValidShape frm P dst) {p : Int × Int} (hp : p ∈ cells frm P dst) :
    ∃ i, InRange frm i ∧ p = cellPair frm P dst i := by
  obtain ⟨i, hi, rfl⟩ := List.mem_map.1 hp
  exact ⟨i, (mem_allIdx frm hv.2.2.2.1 i).1 hi, rfl⟩

/-- No destination address occurs twice among the cells. -/
theorem nodup_cells_fst {frm dst : TensorRef} {P : Permutation} (hv : ValidShape frm P dst)
    (hinj : OffsetsInjective dst) : (List.map Prod.fst (cells frm P dst)).Nodup := by
  unfold cells
  rw [List.map_map]
  apply List.Nodup.map_on _ (nodup_allIdx frm)
  intro i hi u hu h
  have hi := (mem_allIdx frm hv.2.2.2.1 i).1 hi
  have hu := (mem_allIdx frm hv.2.2.2.1 u).1 hu
  simp only [Function.comp_apply, cellPair, add_right_inj] at h
  have := hinj _ _ (inRange_permIdx hv hi) (inRange_permIdx hv hu) h
  exact permIdx_inj hv.2.2.1 (hi.1.trans hv.1.symm) (hu.1.trans hv.1.symm) this

/-! ## What the standard callables leave behind -/

theorem applyPairs_memCall_other {α : Type} (f : α → α → α) :
    ∀ (L : List (Int × Int)) (m : Mem α) (a : Int), a ∉ List.map Prod.fst L →
      applyPairs (memCall f) m L a = m a := by
  intro L
  induction L with
  | nil => intro m a _; rfl
  | cons q L ih =>
    intro m a ha
    simp only [List.map_cons, List.mem_cons, not_or] at ha
    show applyPairs (memCall f) (memCall f m q.1 q.2) L a = m a
    rw [ih _ a ha.2]
    simp [memCall, Mem.write, ha.1]

/-- When no destination address repeats and none is also a source address, every cell ends
with `f` of its two old values. -/
theorem applyPairs_memCall {α : Type} (f : α → α → α) :
    ∀ (L : List (Int × Int)) (m : Mem α), (List.map Prod.fst L).Nodup →
      (∀ p ∈ L, ∀ q ∈ L, p.1 ≠ q.2) →
      ∀ p ∈ L, applyPairs (memCall f) m L p.1 = f (m p.1) (m p.2) := by
  intro L
  induction L with
  | nil => intro m _ _ p hp; simp at hp
  | cons q L ih =>
    intro m hnd hno p hp
    rw [List.map_cons, List.nodup_cons] at hnd
    show applyPairs (memCall f) (memCall f m q.1 q.2) L p.1 = f (m p.1) (m p.2)
    rcases List.mem_cons.1 hp with rfl | hpL
    · rw [applyPairs_memCall_other f L _ _ hnd.1]
      simp [memCall, Mem.write]
    · rw [ih _ hnd.2 (fun a ha b hb => hno a (List.mem_cons_of_mem _ ha) b
        (List.mem_cons_of_mem _ hb)) p hpL]
      have h1 : p.1 ≠ q.1 := by
        intro h
        exact hnd.1 (h ▸ List.mem_map_of_mem _ hpL)
      have h2 : p.2 ≠ q.1 := fun h => hno q (List.mem_cons_self _ _) p hp h.symm
      simp [memCall, Mem.write, h1, h2]

theorem applyPairs_countCall : ∀ (L : List (Int × Int)) (cnt : Int → Nat) (a : Int),
    applyPairs countCall cnt L a = cnt a + (List.map Prod.fst L).count a := by
  intro L
  induction L with
  | nil => intro cnt a; rfl
  | cons q L ih =>
    intro cnt a
    show applyPairs countCall (countCall cnt q.1 q.2) L a = _
    rw [ih, List.map_cons, List.count_cons]
    by_cases h : a = q.1
    · subst h; simp [countCall]; omega
    · have : ¬ (q.1 = a) := fun h' => h h'.symm
      simp [countCall, h, this]

/-- A decidable form of `OffsetsInjective`: the offsets of all index vectors are distinct. -/
theorem offsetsInjective_of_nodup (t : TensorRef) (hpos : PosExtents t)
    (h : (List.map (ind t) (allIdx t)).Nodup) : OffsetsInjective t := by
  intro i j hi hj hij
  exact List.inj_on_of_nodup_map h ((mem_allIdx t hpos i).2 hi) ((mem_allIdx t hpos j).2 hj) hij

/-- A decidable form of `NoOverlap`: the two lists of addresses share no element. -/
theorem noOverlap_of_forall (frm dst : TensorRef) (hf : PosExtents frm) (hd : PosExtents dst)
    (h : ∀ a ∈ List.map (fun t => dst.data + ind dst t) (allIdx dst),
      ∀ b ∈ List.map (fun i => frm.data + ind frm i) (allIdx frm), a ≠ b) :
    NoOverlap frm dst := by
  intro i t hi ht
  exact h _ (List.mem_map_of_mem _ ((mem_allIdx dst hd t).2 ht)) _
    (List.mem_map_of_mem _ ((mem_allIdx frm hf i).2 hi))

theorem exDst_injective : OffsetsInjective exDst :=
  offsetsInjective_of_nodup exDst (by decide) (by decide)

theorem ex_noOverlap : NoOverlap exFrm exDst :=
  noOverlap_of_forall exFrm exDst (by decide) (by decide) (by decide)

/-- On a valid input whose destination addresses are distinct and disjoint from the source,
the unchecked engine with `memCall f` returns and leaves in every destination cell `f` of the old
destination value and the source value. -/
theorem permute_memCall {α : Type} (f : α → α → α) (fuel : Nat)
    (frm : TensorRef) (P : Permutation) (dst : TensorRef) (m : Mem α)
    (hv : ValidShape frm P dst) (hinj : OffsetsInjective dst) (hno : NoOverlap frm dst)
    (hfuel : frm.size < fuel) :
    ∃ m', permute false (memCall f) fuel frm P dst m = .done m' ∧
      ∀ i t, InRange frm i → t.length = frm.r →
        (∀ j, j < frm.r → t.getD (P.dest j) 0 = i.getD j 0) →
        m' (dst.data + ind dst t) = f (m (dst.data + ind dst t)) (m (frm.data + ind frm i)) := by
  refine ⟨_, permute_done (memCall f) fuel frm P dst m hv hfuel, ?_⟩
  intro i t hi ht hti
  have ht' : t = permIdx P i := by
    apply eq_of_getD_dest hv.2.2.1 _ _ (ht.trans hv.1.symm) (length_permIdx P i)
    intro j hj
    rw [hti j (hv.1 ▸ hj), getD_permIdx hv.2.2.1 i j hj]
  subst ht'
  refine applyPairs_memCall f (cells frm P dst) m (nodup_cells_fst hv hinj) ?_
    (cellPair frm P dst i) (mem_cells hv hi)
  intro p hp q hq
  obtain ⟨a, ha, rfl⟩ := exists_of_mem_cells hv hp
  obtain ⟨b, hb, rfl⟩ := exists_of_mem_cells hv hq
  exact hno b (permIdx P a) hb (inRange_permIdx hv ha)

/-! ## The allocating overload -/

theorem map_ext_foldl_set (p g : Nat → Nat) (L : List Nat) (init : List IndStr) :
    List.map IndStr.ext (L.foldl
      (fun rs j => rs.set (p j) { rs.getD (p j) default with ext := g j }) init) =
    L.foldl (fun t j => t.set (p j) (g j)) (List.map IndStr.ext init) := by
  induction L generalizing init with
  | nil => rfl
  | cons a L ih => rw [List.foldl_cons, ih, List.foldl_cons, List.map_set]

theorem extent_eq_getD (t : TensorRef) (j : Nat) :
    t.extent j = (List.map IndStr.ext t.range).getD j 0 := by
  unfold TensorRef.extent
  by_cases h : j < t.range.length
  · rw [List.getD_eq_getElem _ _ h, List.getD_eq_getElem _ _ (by simpa using h)]
    simp
  · rw [List.getD_eq_default _ _ (by omega), List.getD_eq_default _ _ (by simp; omega)]
    rfl

/-- The requested extents: as many as the source has axes, and at axis `P.dest j` the source
extent of axis `j`. -/
theorem newRange_spec {frm : TensorRef} {P : Permutation} (hP : P.IsBijection)
    (hr : P.size = frm.r) :
    (List.map IndStr.ext (newRange frm P)).length = frm.r ∧
    ∀ j, j < frm.r → (List.map IndStr.ext (newRange frm P)).getD (P.dest j) 0 = frm.extent j := by
  unfold newRange
  rw [map_ext_foldl_set P.dest frm.extent]
  refine ⟨by rw [length_foldl_set]; simp, ?_⟩
  rw [← hr]
  exact getD_foldl_set P.dest frm.extent _ 0 P.size
    (fun j hj => by simpa [hr] using hr ▸ hP.1 j hj) hP.2

/-- An allocated array of the requested extents has the permuted shape of the source. -/
theorem alloc_shape {frm : TensorRef} {P : Permutation} (alloc : List IndStr → TensorRef)
    (hP : P.IsBijection) (hr : P.size = frm.r)
    (hA : List.map IndStr.ext (alloc (newRange frm P)).range =
      List.map IndStr.ext (newRange frm P)) :
    (alloc (newRange frm P)).r = frm.r ∧
    ∀ j, j < frm.r → (alloc (newRange frm P)).extent (P.dest j) = frm.extent j := by
  have hs := newRange_spec hP hr
  constructor
  · have := congrArg List.length hA
    rw [hs.1] at this
    simpa [TensorRef.r] using this
  · intro j hj
    rw [extent_eq_getD, hA]
    exact hs.2 j hj

theorem permuteNew_spec {α : Type} (alloc : List IndStr → TensorRef)
    (fuel : Nat) (frm : TensorRef) (P : Permutation) (m : Mem α) (hr : P.size = frm.r)
    (hP : P.IsBijection) (hpos : PosExtents frm) (hA : FreshAlloc alloc frm P)
    (hfuel : frm.size < fuel) :
    ValidShape frm P (alloc (newRange frm P)) ∧
    ∃ m', permuteNew alloc false fuel frm P m = .done (alloc (newRange frm P), m') ∧
      ∀ i, InRange frm i →
        m' ((alloc (newRange frm P)).data + ind (alloc (newRange frm P)) (permIdx P i)) =
          m (frm.data + ind frm i) := by
  have hs := alloc_shape alloc hP hr hA.1
  have hv : ValidShape frm P (alloc (newRange frm P)) := ⟨hr, hs.1, hP, hpos, hs.2⟩
  refine ⟨hv, ?_⟩
  obtain ⟨m', hm', hget⟩ := permute_memCall assign fuel frm P _ m hv hA.2.1 hA.2.2 hfuel
  refine ⟨m', ?_, ?_⟩
  · unfold permuteNew permuteAssign
    rw [hm']
  · intro i hi
    exact hget i (permIdx P i) hi ((length_permIdx P i).trans hr)
      (fun j hj => getD_permIdx hP i j (hr ▸ hj))

/-- Two permuted index vectors in a row: the vector with `t[Q.dest (P.dest j)] = i[j]`. -/
theorem permIdx_permIdx {P Q : Permutation} (hP : P.IsBijection) (hQ : Q.IsBijection)
    (hs : Q.size = P.size) (i t : List Int) (ht : t.length = P.size)
    (h : ∀ j, j < P.size → t.getD (Q.dest (P.dest j)) 0 = i.getD j 0) :
    permIdx Q (permIdx P i) = t := by
  apply eq_of_getD_dest hQ _ _ (length_permIdx Q _) (ht.trans hs.symm)
  intro k hk
  obtain ⟨j, hj, rfl⟩ := Permutation.exists_dest_eq hP k (hs ▸ hk)
  rw [getD_permIdx hQ _ _ hk, getD_permIdx hP i j hj, h j hj]

theorem permIdx_of_id {P : Permutation} (hid : ∀ j, j < P.size → P.dest j = j)
    (hP : P.IsBijection) (i : List Int) (hi : i.length = P.size) : permIdx P i = i := by
  apply eq_of_getD_dest hP _ _ (length_permIdx P _) hi
  intro j hj
  rw [getD_permIdx hP i j hj, hid j hj]

theorem isBijection_of_id {P : Permutation} (hid : ∀ j, j < P.size → P.dest j = j) :
    P.IsBijection :=
  ⟨fun j hj => by rw [hid j hj]; exact hj,
   fun j hj k hk h => by rwa [hid j hj, hid k hk] at h⟩

theorem isBijection_of_inverse {P Pinv : Permutation} (hP : P.IsBijection)
    (hs : Pinv.size = P.size) (hinv : ∀ j, j < P.size → Pinv.dest (P.dest j) = j) :
    Pinv.IsBijection := by
  constructor
  · intro k hk
    obtain ⟨j, hj, rfl⟩ := Permutation.exists_dest_eq hP k (hs ▸ hk)
    rw [hinv j hj, hs]; exact hj
  · intro k hk k' hk' h
    obtain ⟨j, hj, rfl⟩ := Permutation.exists_dest_eq hP k (hs ▸ hk)
    obtain ⟨j', hj', rfl⟩ := Permutation.exists_dest_eq hP k' (hs ▸ hk')
    rw [hinv j hj, hinv j' hj'] at h
    rw [h]

theorem posExtents_of_validShape {frm dst : TensorRef} {P : Permutation}
    (hv : ValidShape frm P dst) : PosExtents dst := by
  obtain ⟨hr, hd, hP, hpos, he⟩ := hv
  intro k hk
  obtain ⟨j, hj, rfl⟩ := Permutation.exists_dest_eq hP k (by rw [hr, ← hd]; exact hk)
  rw [he j (hr ▸ hj)]
  exact hpos j (hr ▸ hj)

theorem exAlloc_fresh : FreshAlloc (exAllocAt 100) exFrm exP :=
  ⟨by decide, offsetsInjective_of_nodup _ (by decide) (by decide),
   noOverlap_of_forall _ _ (by decide) (by decide) (by decide)⟩

theorem exAlloc_fresh_again :
    FreshAlloc (exAllocAt 200) (exAllocAt 100 (newRange exFrm exP)) exP :=
  ⟨by decide, offsetsInjective_of_nodup _ (by decide) (by decide),
   noOverlap_of_forall _ _ (by decide) (by decide) (by decide)⟩

theorem exAlloc_fresh_id : FreshAlloc (exAllocAt 100) exFrm exId :=
  ⟨by decide, offsetsInjective_of_nodup _ (by decide) (by decide),
   noOverlap_of_forall _ _ (by decide) (by decide) (by decide)⟩

/-! ## The label overload -/

theorem store_foldl_setFromTo (g : Nat → Nat) (L : List Nat) (P : Permutation) :
    (L.foldl (fun (Q : Permutation) j => Q.setFromTo j (g j)) P).store =
      L.foldl (fun t j => t.set j (g j)) P.store := by
  induction L generalizing P with
  | nil => rfl
  | cons a L ih => rw [List.foldl_cons, ih, List.foldl_cons]; rfl

/-- What the model of `calc_permutation` computes from the identity on `n` axes. -/
theorem calc_permutation_store (g : Nat → Nat) (n : Nat) :
    ((List.range n).foldl (fun (Q : Permutation) j => Q.setFromTo j (g j))
      (Permutation.ofSize n)).store = List.map g (List.range n) := by
  rw [store_foldl_setFromTo]
  have := foldl_set_range g (List.range n)
  simpa [Permutation.ofSize] using this

/-! ## The checked build on views that stay within their bounds -/

theorem safeDeref_of_inBounds (DEBUG : Bool) {t : TensorRef} (hb : InBounds t) {i : List Int}
    (hi : InRange t i) : safeDeref DEBUG t (t.data + ind t i) = true := by
  have := hb i hi
  cases DEBUG
  · rfl
  · simp only [safeDeref, Bool.not_true, Bool.false_or, Bool.and_eq_true, decide_eq_true_eq]
    omega

/-- When every dereference of every pass goes through, the outer loop is the loop over plain
pointers. -/
theorem outerLoop_of_safe {σ : Type} (DEBUG : Bool) (call : σ → Int → Int → σ)
    {P : Permutation} (hP : P.IsBijection) (frm dst : TensorRef) (bigsize : Nat)
    (stepto stepfrom : Int) :
    ∀ (fuel : Nat) (c : GCounter) (ti : List Int) (s : σ), ti.length = P.size →
      (c.terminal = false → ∀ ci ∈ c.i :: after c.i c.first c.last, ∀ b : Nat, b < bigsize →
        safeDeref DEBUG dst (dst.data + ind dst (permIdx P ci) + (b : Int) * stepto) = true ∧
        safeDeref DEBUG frm (frm.data + ind frm ci + (b : Int) * stepfrom) = true) →
      outerLoop DEBUG call frm P dst P.size bigsize stepto stepfrom fuel c ti s =
        outerPlain call frm P dst P.size bigsize stepto stepfrom fuel c ti s := by
  intro fuel
  induction fuel with
  | zero => intro c ti s _ _; rfl
  | succ fuel ih =>
    intro c ti s hti hok
    rw [outerLoop, outerPlain]
    by_cases hnd : c.notDone = true
    · have hc : c.terminal = false := by simpa [GCounter.notDone] using hnd
      rw [if_pos hnd, if_pos hnd, fillTi_eq_permIdx hP c.i ti hti]
      rw [innerLoop_of_safe DEBUG call frm dst stepto stepfrom bigsize _ _ s
        (hok hc c.i (List.mem_cons_self _ _))]
      apply ih _ _ _ (length_permIdx P c.i)
      intro hadv ci hci
      have hcar : (GCounter.carry c.i c.first c.last).2 = false := by
        simpa [GCounter.advance, hc] using hadv
      have hA := carry_after_false _ _ _ hcar
      apply hok hc ci
      rw [hA]
      exact List.mem_cons_of_mem _ (by simpa [GCounter.advance] using hci)
    · rw [if_neg hnd, if_neg hnd]

/-- On a valid input whose views stay within their bounds the checked engine passes all its
checks and does what the unchecked engine does. -/
theorem permute_checked_done {σ : Type} (call : σ → Int → Int → σ) (fuel : Nat)
    (frm : TensorRef) (P : Permutation) (dst : TensorRef) (s : σ)
    (hv : ValidShape frm P dst) (hbf : InBounds frm) (hbd : InBounds dst)
    (hfuel : frm.size < fuel) :
    permute true call fuel frm P dst s = .done (applyPairs call s (cells frm P dst)) := by
  rw [← permute_done call fuel frm P dst s hv hfuel]
  obtain ⟨hr, hd, hP, hpos, he⟩ := hv
  unfold permute
  simp only [if_true, shapeCheck_none hP hr hd he, Bool.false_eq_true, if_false]
  by_cases h0 : P.size = 0
  · simp [h0]
  · rw [if_neg h0, if_neg h0, outerLoop_false]
    have hpos' : 0 < frm.r := by omega
    have hbig := findBig_spec frm frm.r hpos'
    apply outerLoop_of_safe true call hP frm dst _ _ _ fuel _ _ s (by simp)
    intro _ ci hci b hb
    rw [hr, mkCounter_eq frm frm.r _ hpos'] at hci
    simp only at hci
    rw [first_cons_after _ _ (by simp [length_lastsOf])] at hci
    have hmem : ci.set (findBig frm frm.r).1 (b : Int) ∈ visitOrder frm := by
      unfold visitOrder
      rw [List.mem_flatMap]
      exact ⟨ci, hci, List.mem_map_of_mem _ (List.mem_range.2 (hr ▸ hb))⟩
    have hin := (mem_visitOrder frm hpos' hpos _).1 hmem
    rw [mem_engine_box frm _ hbig.1] at hci
    have hstep := cellPair_step hP frm dst hr hd _ hbig.1 ci hci.1 hci.2.1 b
    simp only [cellPair, Prod.mk.injEq] at hstep
    rw [hr, hstep.1, hstep.2]
    exact ⟨safeDeref_of_inBounds true hbd (inRange_permIdx ⟨hr, hd, hP, hpos, he⟩ hin),
      safeDeref_of_inBounds true hbf hin⟩

/-! ## The big axis, and storages that agree on the source -/

/-- The scan keeps, after axes `0..k`, the first axis of largest extent among them. -/
theorem findBig_fold_max (frm : TensorRef) : ∀ (k : Nat),
    (∀ j, j ≤ k → frm.extent j ≤ ((List.range k).foldl
      (fun (acc : Nat × Nat) k =>
        if acc.2 < frm.extent (k + 1) then (k + 1, frm.extent (k + 1)) else acc)
      (0, frm.extent 0)).2) ∧
    (∀ j, j < ((List.range k).foldl
      (fun (acc : Nat × Nat) k =>
        if acc.2 < frm.extent (k + 1) then (k + 1, frm.extent (k + 1)) else acc)
      (0, frm.extent 0)).1 → frm.extent j < ((List.range k).foldl
      (fun (acc : Nat × Nat) k =>
        if acc.2 < frm.extent (k + 1) then (k + 1, frm.extent (k + 1)) else acc)
      (0, frm.extent 0)).2) := by
  intro k
  induction k with
  | zero =>
    refine ⟨fun j hj => ?_, fun j hj => ?_⟩
    · have : j = 0 := by omega
      subst this; simp
    · simp at hj
  | succ k ih =>
    rw [List.range_succ, List.foldl_append]
    simp only [List.foldl_cons, List.foldl_nil]
    split
    · rename_i hlt
      refine ⟨fun j hj => ?_, fun j hj => ?_⟩
      · by_cases hjk : j = k + 1
        · subst hjk; exact Nat.le_refl _
        · exact Nat.le_of_lt (Nat.lt_of_le_of_lt (ih.1 j (by omega)) hlt)
      · exact Nat.lt_of_le_of_lt (ih.1 j (by simpa using Nat.lt_succ_iff.1 hj)) hlt
    · rename_i hnlt
      refine ⟨fun j hj => ?_, ih.2⟩
      by_cases hjk : j = k + 1
      · subst hjk; exact Nat.le_of_not_lt hnlt
      · exact ih.1 j (by omega)

/-- A decidable form of agreement on the source: the two storages agree at the address of
every index vector of the source. -/
theorem agree_of_forall {α : Type} (frm : TensorRef) (hf : PosExtents frm) (m1 m2 : Mem α)
    (h : ∀ i ∈ allIdx frm, m1 (frm.data + ind frm i) = m2 (frm.data + ind frm i)) :
    ∀ i, InRange frm i → m1 (frm.data + ind frm i) = m2 (frm.data + ind frm i) :=
  fun i hi => h i ((mem_allIdx frm hf i).2 hi)

theorem exMem_agree : ∀ i, InRange exFrm i →
    exMem (exFrm.data + ind exFrm i) = exMemOther (exFrm.data + ind exFrm i) :=
  agree_of_forall exFrm (by decide) exMem exMemOther (by decide)

/-! ## The order and the number of the odometer states -/

theorem colexLt_irrefl : ∀ (c : List Int), ¬ colexLt c c
  | [] => by simp [colexLt]
  | x :: xs => by
      intro h
      rcases h with h | ⟨_, h⟩
      · exact colexLt_irrefl xs h
      · exact lt_irrefl x h

theorem pairwise_upFrom (x l : Int) : (upFrom x l).Pairwise (· < ·) := by
  unfold upFrom
  rw [List.pairwise_map]
  refine List.Pairwise.imp ?_ (List.pairwise_lt_range _)
  intro a b hab
  omega

theorem pairwise_axisVals (f l : Int) : (axisVals f l).Pairwise (· < ·) := by
  unfold axisVals
  rw [List.pairwise_cons]
  refine ⟨fun v hv => ?_, pairwise_upFrom _ _⟩
  rw [mem_upFrom] at hv
  omega

/-- The states of an odometer come in mixed-radix order, axis 0 fastest. -/
theorem pairwise_box : ∀ (fs ls : List Int), (box fs ls).Pairwise colexLt
  | [], [] => by simp [box]
  | [], _ :: _ => by simp [box]
  | _ :: _, [] => by simp [box]
  | f :: fs, l :: ls => by
      have ih := pairwise_box fs ls
      simp only [box]
      rw [List.pairwise_flatMap]
      refine ⟨fun t _ => ?_, ?_⟩
      · rw [List.pairwise_map]
        refine List.Pairwise.imp ?_ (pairwise_axisVals f l)
        intro a b hab
        exact Or.inr ⟨rfl, hab⟩
      · refine List.Pairwise.imp ?_ ih
        intro a b hab x hx y hy
        obtain ⟨v, _, rfl⟩ := List.mem_map.1 hx
        obtain ⟨w, _, rfl⟩ := List.mem_map.1 hy
        exact Or.inl hab

/-- From a state that is not terminal the odometer passes, advance by advance, through the
states after it, and becomes terminal by the advance that follows the last of them. -/
theorem iterate_advance : ∀ (n : Nat) (c : GCounter), c.terminal = false →
    (after c.i c.first c.last).length = n →
    (∀ k, k ≤ n → (GCounter.advance^[k] c).terminal = false ∧
      (c.i :: after c.i c.first c.last)[k]? = some (GCounter.advance^[k] c).i) ∧
    (GCounter.advance^[n + 1] c).terminal = true := by
  intro n
  induction n with
  | zero =>
    intro c hc hlen
    have hnil : after c.i c.first c.last = [] := List.length_eq_zero.1 hlen
    have hcar : (GCounter.carry c.i c.first c.last).2 = true := by
      cases h : (GCounter.carry c.i c.first c.last).2 with
      | true => rfl
      | false =>
        have := carry_after_false _ _ _ h
        rw [hnil] at this
        exact absurd this (by simp)
    refine ⟨fun k hk => ?_, ?_⟩
    · have : k = 0 := by omega
      subst this
      simp [hc]
    · simp [GCounter.advance, hcar]
  | succ n ih =>
    intro c hc hlen
    have hcar : (GCounter.carry c.i c.first c.last).2 = false := by
      cases h : (GCounter.carry c.i c.first c.last).2 with
      | false => rfl
      | true =>
        have := carry_after_true _ _ _ h
        rw [this] at hlen
        simp at hlen
    have hA := carry_after_false _ _ _ hcar
    have hadv : c.advance.terminal = false := by simp [GCounter.advance, hc, hcar]
    have hlen' : (after c.advance.i c.advance.first c.advance.last).length = n := by
      rw [hA] at hlen
      simpa [GCounter.advance] using hlen
    obtain ⟨h1, h2⟩ := ih c.advance hadv hlen'
    refine ⟨fun k hk => ?_, ?_⟩
    · cases k with
      | zero => simp [hc]
      | succ k =>
        rw [Function.iterate_succ_apply]
        obtain ⟨t1, t2⟩ := h1 k (by omega)
        refine ⟨t1, ?_⟩
        rw [List.getElem?_cons_succ, hA]
        simpa [GCounter.advance] using t2
    · rw [Function.iterate_succ_apply]
      exact h2

/-- The number of odometer states times the extent of the big axis is the element count. -/
theorem states_mul_bigsize (frm : TensorRef) (hr : 0 < frm.r) (hext : PosExtents frm) :
    (box (List.replicate frm.r 0) (lastsOf frm frm.r (findBig frm frm.r).1)).length *
      (findBig frm frm.r).2 = frm.size := by
  have hbig := findBig_spec frm frm.r hr
  have hmem : (findBig frm frm.r).1 ∈ Finset.range frm.r := Finset.mem_range.2 hbig.1
  rw [length_box _ _ (by simp [length_lastsOf]), size_eq_prod]
  simp only [List.length_replicate]
  rw [← Finset.prod_erase_mul _ _ hmem, ← Finset.prod_erase_mul _ _ hmem, hbig.2,
    getD_replicate_zero, getD_lastsOf_big frm frm.r _ hbig.1]
  simp only [axisVals, List.length_cons, length_upFrom]
  have e1 : ((0 : Int) + 1 - (0 + 1)).toNat + 1 = 1 := by simp
  rw [e1, Nat.mul_one]
  congr 1
  apply Finset.prod_congr rfl
  intro j hj
  rw [Finset.mem_erase, Finset.mem_range] at hj
  rw [getD_replicate_zero, getD_lastsOf_ne frm frm.r _ j hj.2 hj.1]
  have := hext j hj.2
  omega

theorem applyPairs_traceCall (log L : List (Int × Int)) :
    applyPairs traceCall log L = log ++ L := by
  induction L generalizing log with
  | nil => simp [applyPairs]
  | cons p L ih =>
    show applyPairs traceCall (traceCall log p.1 p.2) L = _
    rw [ih]; simp [traceCall]

theorem length_visitOrder (frm : TensorRef) :
    (visitOrder frm).length =
      (box (List.replicate frm.r 0) (lastsOf frm frm.r (findBig frm frm.r).1)).length *
        (findBig frm frm.r).2 := by
  unfold visitOrder
  rw [List.length_flatMap]
  have hc : (List.length ∘ fun c : List Int =>
      List.map (fun b : Nat => c.set (findBig frm frm.r).1 (b : Int))
        (List.range (findBig frm frm.r).2)) = fun _ => (findBig frm frm.r).2 := by
    funext c; simp
  rw [hc, List.map_const', List.sum_replicate, smul_eq_mul]

theorem length_allIdx (frm : TensorRef) (hext : PosExtents frm) :
    (allIdx frm).length = frm.size := by
  unfold allIdx
  by_cases h0 : frm.r = 0
  · rw [if_pos h0, size_eq_prod, h0]; simp
  · rw [if_neg h0, length_visitOrder, states_mul_bigsize frm (Nat.pos_of_ne_zero h0) hext]

/-- The number of odometer states is the element count divided by the extent of the big
axis. -/
theorem states_eq_div (frm : TensorRef) (hr : 0 < frm.r) (hext : PosExtents frm) :
    (box (List.replicate frm.r 0) (lastsOf frm frm.r (findBig frm frm.r).1)).length =
      frm.size / (findBig frm frm.r).2 := by
  have hbig := findBig_spec frm frm.r hr
  have hpos : 0 < (findBig frm frm.r).2 := by rw [hbig.2]; exact hext _ hbig.1
  rw [← states_mul_bigsize frm hr hext, Nat.mul_div_cancel _ hpos]

/-- The run of the odometer as the engine sets it up: advance `k` leaves the `k`-th state of
`box`, and the advance after the last state makes it terminal. -/
theorem odometer_run (frm : TensorRef) (hr : 0 < frm.r) :
    (∀ k, k < (box (List.replicate frm.r 0)
        (lastsOf frm frm.r (findBig frm frm.r).1)).length →
      (GCounter.advance^[k] (mkCounter frm frm.r (findBig frm frm.r).1)).notDone = true ∧
      (box (List.replicate frm.r 0) (lastsOf frm frm.r (findBig frm frm.r).1))[k]? =
        some (GCounter.advance^[k] (mkCounter frm frm.r (findBig frm frm.r).1)).i) ∧
    (GCounter.advance^[(box (List.replicate frm.r 0)
        (lastsOf frm frm.r (findBig frm frm.r).1)).length]
      (mkCounter frm frm.r (findBig frm frm.r).1)).notDone = false := by
  have hbox := first_cons_after (List.replicate frm.r 0)
    (lastsOf frm frm.r (findBig frm frm.r).1) (by simp [length_lastsOf])
  have hlen : (box (List.replicate frm.r 0) (lastsOf frm frm.r (findBig frm frm.r).1)).length =
      (after (List.replicate frm.r 0) (List.replicate frm.r 0)
        (lastsOf frm frm.r (findBig frm frm.r).1)).length + 1 := by
    rw [← hbox]; simp
  obtain ⟨h1, h2⟩ := iterate_advance _ (mkCounter frm frm.r (findBig frm frm.r).1)
    (by rw [mkCounter_eq frm frm.r _ hr]) rfl
  rw [mkCounter_eq frm frm.r _ hr] at h1 h2 ⊢
  simp only at h1 h2
  rw [hbox] at h1
  refine ⟨fun k hk => ?_, ?_⟩
  · obtain ⟨t1, t2⟩ := h1 k (by omega)
    exact ⟨by simp [GCounter.notDone, t1], t2⟩
  · rw [hlen]
    unfold GCounter.notDone
    rw [h2]
    rfl

/-- The inner loop with the logging callable adds one entry per iteration. -/
theorem innerLoop_trace_length (frm dst : TensorRef) (stepto stepfrom : Int) :
    ∀ (n : Nat) (pto pfrom : Int) (log : List (Int × Int)),
      ∃ log', innerLoop false traceCall frm dst stepto stepfrom n pto pfrom log = .done log' ∧
        log'.length = log.length + n := by
  intro n pto pfrom log
  refine ⟨_, innerLoop_of_safe false traceCall frm dst stepto stepfrom n pto pfrom log
    (fun b _ => ⟨safeDeref_false _ _, safeDeref_false _ _⟩), ?_⟩
  rw [innerPlain_eq, applyPairs_traceCall]
  simp

/-- On views with positive extents that stay within their bounds the checked engine is the
unchecked engine, whatever the fuel. -/
theorem permute_checked_eq {σ : Type} (call : σ → Int → Int → σ) (fuel : Nat)
    (frm : TensorRef) (P : Permutation) (dst : TensorRef) (s : σ)
    (hv : ValidShape frm P dst) (hbf : InBounds frm) (hbd : InBounds dst) :
    permute true call fuel frm P dst s = permute false call fuel frm P dst s := by
  obtain ⟨hr, hd, hP, hpos, he⟩ := hv
  unfold permute
  simp only [if_true, shapeCheck_none hP hr hd he, Bool.false_eq_true, if_false]
  by_cases h0 : P.size = 0
  · simp [h0]
  · rw [if_neg h0, if_neg h0, outerLoop_false]
    have hpos' : 0 < frm.r := by omega
    have hbig := findBig_spec frm frm.r hpos'
    apply outerLoop_of_safe true call hP frm dst _ _ _ fuel _ _ s (by simp)
    intro _ ci hci b hb
    rw [hr, mkCounter_eq frm frm.r _ hpos'] at hci
    simp only at hci
    rw [first_cons_after _ _ (by simp [length_lastsOf])] at hci
    have hmem : ci.set (findBig frm frm.r).1 (b : Int) ∈ visitOrder frm := by
      unfold visitOrder
      rw [List.mem_flatMap]
      exact ⟨ci, hci, List.mem_map_of_mem _ (List.mem_range.2 (hr ▸ hb))⟩
    have hin := (mem_visitOrder frm hpos' hpos _).1 hmem
    rw [mem_engine_box frm _ hbig.1] at hci
    have hstep := cellPair_step hP frm dst hr hd _ hbig.1 ci hci.1 hci.2.1 b
    simp only [cellPair, Prod.mk.injEq] at hstep
    rw [hr, hstep.1, hstep.2]
    exact ⟨safeDeref_of_inBounds true hbd (inRange_permIdx ⟨hr, hd, hP, hpos, he⟩ hin),
      safeDeref_of_inBounds true hbf hin⟩

/-- A decidable form of `InBounds`: the offset of every index vector is within bounds. -/
theorem inBounds_of_forall (t : TensorRef) (hpos : PosExtents t)
    (h : ∀ i ∈ allIdx t, 0 ≤ ind t i ∧ ind t i < (t.size : Int)) : InBounds t :=
  fun i hi => h i ((mem_allIdx t hpos i).2 hi)

/-- A decidable form of `Compact`: the offsets of the index vectors are distinct, within
bounds, and every offset below the size is taken. -/
theorem compact_of_forall (t : TensorRef) (hpos : PosExtents t)
    (hb : ∀ i ∈ allIdx t, 0 ≤ ind t i ∧ ind t i < (t.size : Int))
    (hn : (List.map (ind t) (allIdx t)).Nodup)
    (ho : ∀ o ∈ List.range t.size, (o : Int) ∈ List.map (ind t) (allIdx t)) : Compact t := by
  refine ⟨inBounds_of_forall t hpos hb, offsetsInjective_of_nodup t hpos hn, ?_⟩
  intro o h0 h1
  have := ho o.toNat (List.mem_range.2 (by omega))
  rw [Int.toNat_of_nonneg h0] at this
  obtain ⟨i, hi, rfl⟩ := List.mem_map.1 this
  exact ⟨i, (mem_allIdx t hpos i).1 hi, rfl⟩

theorem exFrm_compact : Compact exFrm :=
  compact_of_forall exFrm (by decide) (by decide) (by decide) (by decide)

theorem exDst_compact : Compact exDst :=
  compact_of_forall exDst (by decide) (by decide) (by decide) (by decide)

theorem isBijection_of_comp {P Q R : Permutation} (hP : P.IsBijection) (hQ : Q.IsBijection)
    (hQs : Q.size = P.size) (hRs : R.size = P.size)
    (hR : ∀ j, j < P.size → R.dest j = Q.dest (P.dest j)) : R.IsBijection := by
  constructor
  · intro j hj
    rw [hRs] at hj ⊢
    rw [hR j hj, ← hQs]
    exact hQ.1 _ (hQs ▸ hP.1 j hj)
  · intro j hj k hk h
    rw [hRs] at hj hk
    rw [hR j hj, hR k hk] at h
    exact hP.2 j hj k hk (hQ.2 _ (hQs ▸ hP.1 j hj) _ (hQs ▸ hP.1 k hk) h)

theorem exAlloc3_fresh_P : FreshAlloc (exAllocAt 100) exTieFrm exP3 :=
  ⟨by decide, offsetsInjective_of_nodup _ (by decide) (by decide),
   noOverlap_of_forall _ _ (by decide) (by decide) (by decide)⟩

theorem exAlloc3_fresh_Q :
    FreshAlloc (exAllocAt 200) (exAllocAt 100 (newRange exTieFrm exP3)) exQ3 :=
  ⟨by decide, offsetsInjective_of_nodup _ (by decide) (by decide),
   noOverlap_of_forall _ _ (by decide) (by decide) (by decide)⟩

theorem exAlloc3_fresh_R : FreshAlloc (exAllocAt 300) exTieFrm exR3 :=
  ⟨by decide, offsetsInjective_of_nodup _ (by decide) (by decide),
   noOverlap_of_forall _ _ (by decide) (by decide) (by decide)⟩

/-! ## The checked build for an arbitrary dereference test -/

theorem innerLoopWith_safeDeref {σ : Type} (DEBUG : Bool) (call : σ → Int → Int → σ)
    (frm dst : TensorRef) (stepto stepfrom : Int) :
    ∀ (n : Nat) (pto pfrom : Int) (s : σ),
      innerLoopWith (safeDeref DEBUG) call frm dst stepto stepfrom n pto pfrom s =
        innerLoop DEBUG call frm dst stepto stepfrom n pto pfrom s := by
  intro n
  induction n with
  | zero => intro pto pfrom s; rfl
  | succ n ih =>
    intro pto pfrom s
    rw [innerLoopWith, innerLoop, ih]

theorem outerLoopWith_safeDeref {σ : Type} (DEBUG : Bool) (call : σ → Int → Int → σ)
    (frm : TensorRef) (P : Permutation) (dst : TensorRef) (r bigsize : Nat)
    (stepto stepfrom : Int) :
    ∀ (fuel : Nat) (c : GCounter) (ti : List Int) (s : σ),
      outerLoopWith (safeDeref DEBUG) call frm P dst r bigsize stepto stepfrom fuel c ti s =
        outerLoop DEBUG call frm P dst r bigsize stepto stepfrom fuel c ti s := by
  intro fuel
  induction fuel with
  | zero => intro c ti s; rfl
  | succ fuel ih =>
    intro c ti s
    rw [outerLoopWith, outerLoop, innerLoopWith_safeDeref]
    split
    · split
      · exact ih _ _ _
      · rfl
      · rfl
    · rfl

/-- The checked engine of the model is the instance of `permuteChecked` at the dereference
test `safeDeref true`. -/
theorem permuteChecked_safeDeref {σ : Type} (call : σ → Int → Int → σ) (fuel : Nat)
    (frm : TensorRef) (P : Permutation) (dst : TensorRef) (s : σ) :
    permuteChecked (safeDeref true) call fuel frm P dst s =
      permute true call fuel frm P dst s := by
  unfold permuteChecked permute
  simp only [if_true, outerLoopWith_safeDeref]

/-- C1: on a valid input (positive extents, `P` a bijection, destination extents matching
under `P`, injective destination offsets, no overlap with the source), `permute(from, P, to)`
with the default assign returns, and afterwards the destination element at the index vector
`t` with `t[P.dest j] = i[j]` for every `j` equals the source element at `i`, for every index
vector `i` within the source extents; any rank including 0, any strides. The build is the
unchecked one (`DEBUG` off). -/
theorem permute_assign_moves_elements {α : Type} (fuel : Nat)
    (frm : TensorRef) (P : Permutation) (dst : TensorRef) (m : Mem α)
    (hv : ValidShape frm P dst) (hinj : OffsetsInjective dst) (hno : NoOverlap frm dst)
    (hfuel : frm.size < fuel) :
    ∃ m', permuteAssign false fuel frm P dst m = .done m' ∧
      ∀ i t, InRange frm i → t.length = frm.r →
        (∀ j, j < frm.r → t.getD (P.dest j) 0 = i.getD j 0) →
        m' (dst.data + ind dst t) = m (frm.data + ind frm i) :=
  permute_memCall assign fuel frm P dst m hv hinj hno hfuel

/-- C1, at the end-to-end example of §8: the hypotheses hold for the source
`[[1,2,3],[4,5,6]]` with the axes swapped, the theorem applies, and the destination reads
`[[1,4],[2,5],[3,6]]`. -/
theorem permute_assign_moves_elements_witness :
    ValidShape exFrm exP exDst ∧ OffsetsInjective exDst ∧ NoOverlap exFrm exDst ∧
    exFrm.size < 7 ∧
    (∃ m', permuteAssign false 7 exFrm exP exDst exMem = .done m' ∧
      ∀ i t, InRange exFrm i → t.length = exFrm.r →
        (∀ j, j < exFrm.r → t.getD (exP.dest j) 0 = i.getD j 0) →
        m' (exDst.data + ind exDst t) = exMem (exFrm.data + ind exFrm i)) ∧
    (permuteAssign false 7 exFrm exP exDst exMem).state?.map
      (fun m' => List.map m' [6, 7, 8, 9, 10, 11]) = some [1, 4, 2, 5, 3, 6] :=
  ⟨by decide, exDst_injective, ex_noOverlap, by decide,
   permute_assign_moves_elements 7 exFrm exP exDst exMem (by decide) exDst_injective
     ex_noOverlap (by decide),
   by decide⟩

/-- C2: on a valid shape, the engine (unchecked build) run with the callable that counts its
applications per destination address, from all counts zero, returns with count exactly 1 at
every cell addressed by the destination view; and no address at all is counted twice. -/
theorem permute_writes_each_cell_once (fuel : Nat)
    (frm : TensorRef) (P : Permutation) (dst : TensorRef)
    (hv : ValidShape frm P dst) (hinj : OffsetsInjective dst) (hfuel : frm.size < fuel) :
    ∃ cnt, permute false countCall fuel frm P dst (fun _ => 0) = .done cnt ∧
      (∀ t, InRange dst t → cnt (dst.data + ind dst t) = 1) ∧ ∀ a, cnt a ≤ 1 := by
  refine ⟨_, permute_done countCall fuel frm P dst _ hv hfuel, ?_, ?_⟩
  · intro t ht
    obtain ⟨i, hi, rfl⟩ := exists_inRange_permIdx hv ht
    rw [applyPairs_countCall, Nat.zero_add]
    exact List.count_eq_one_of_mem (nodup_cells_fst hv hinj)
      (List.mem_map_of_mem Prod.fst (mem_cells hv hi))
  · intro a
    rw [applyPairs_countCall, Nat.zero_add]
    exact List.nodup_iff_count_le_one.1 (nodup_cells_fst hv hinj) a

/-- C2, at the end-to-end example: the six destination cells are each written once. -/
theorem permute_writes_each_cell_once_witness :
    ValidShape exFrm exP exDst ∧ OffsetsInjective exDst ∧ exFrm.size < 7 ∧
    (∃ cnt, permute false countCall 7 exFrm exP exDst (fun _ => 0) = .done cnt ∧
      (∀ t, InRange exDst t → cnt (exDst.data + ind exDst t) = 1) ∧ ∀ a, cnt a ≤ 1) ∧
    (permute false countCall 7 exFrm exP exDst (fun _ => 0)).state?.map
      (fun cnt => List.map cnt [5, 6, 7, 8, 9, 10, 11, 12]) = some [0, 1, 1, 1, 1, 1, 1, 0] :=
  ⟨by decide, exDst_injective, by decide,
   permute_writes_each_cell_once 7 exFrm exP exDst (by decide) exDst_injective
     (by decide),
   by decide⟩

/-- C3: in the checked build, when the permutation size differs from the source rank, or the
destination rank differs from the source rank, or the total sizes differ, or some destination
extent at `P.dest j` differs from the source extent at `j`, the engine throws, whatever the
callable and the fuel, and the state at the throw is the state before the call: the callable
was never applied and nothing was stored. -/
theorem permute_checked_rejects {σ : Type} (call : σ → Int → Int → σ) (fuel : Nat)
    (frm : TensorRef) (P : Permutation) (dst : TensorRef) (s : σ)
    (h : P.size ≠ frm.r ∨ dst.r ≠ frm.r ∨ dst.size ≠ frm.size ∨
      ∃ j, j < frm.r ∧ dst.extent (P.dest j) ≠ frm.extent j) :
    ∃ msg, permute true call fuel frm P dst s = .thrown msg s := by
  have hsome : ∃ msg, shapeCheck frm P dst = some msg := by
    unfold shapeCheck
    by_cases h1 : P.size ≠ frm.r
    · exact ⟨_, if_pos h1⟩
    · rw [if_neg h1]
      by_cases h2 : dst.r ≠ frm.r
      · exact ⟨_, if_pos h2⟩
      · rw [if_neg h2]
        by_cases h3 : dst.size ≠ frm.size
        · exact ⟨_, if_pos h3⟩
        · rw [if_neg h3]
          rcases h with h | h | h | ⟨j, hj, hne⟩
          · exact absurd h h1
          · exact absurd h h2
          · exact absurd h h3
          · refine ⟨_, if_pos ?_⟩
            rw [List.any_eq_true]
            refine ⟨j, List.mem_range.2 ?_, by simpa using hne⟩
            rw [not_not] at h1
            omega
  obtain ⟨msg, hmsg⟩ := hsome
  refine ⟨msg, ?_⟩
  unfold permute
  simp only [if_true, hmsg]

/-- C3, at a destination whose extents are not the permuted source extents: the checked
engine throws with the log of applications still empty. -/
theorem permute_checked_rejects_witness :
    (exP.size ≠ exFrm.r ∨ exBadDst.r ≠ exFrm.r ∨ exBadDst.size ≠ exFrm.size ∨
      ∃ j, j < exFrm.r ∧ exBadDst.extent (exP.dest j) ≠ exFrm.extent j) ∧
    ∃ msg, permute true traceCall 7 exFrm exP exBadDst [] = .thrown msg [] :=
  ⟨by decide, permute_checked_rejects traceCall 7 exFrm exP exBadDst [] (by decide)⟩

/-- C4 fails on the code: with empty label lists and accumulate, the label overload stores
the source scalar 5 over the destination scalar 10, where the rank-0 branch of the engine,
given the empty permutation and the same callable, leaves 10 + 5 = 15. -/
theorem permuteLabel_empty_ignores_func :
    (permuteLabel false (memCall plusEq) 1 exScalarFrm [] exScalarDst [] exScalarMem).state?.map
      (fun m' => m' 1) = some 5 ∧
    (permute false (memCall plusEq) 1 exScalarFrm ⟨[]⟩ exScalarDst exScalarMem).state?.map
      (fun m' => m' 1) = some 15 := by
  decide

/-- C5: for rank 0 and the empty permutation the engine, checked or not and with any fuel,
applies the callable exactly once, to the destination base address and the source base
address; with assign the destination element then equals the source element; and the
allocating overload returns a rank-0 array of one element holding the source element. -/
theorem permute_rank_zero (frm dst : TensorRef) (P : Permutation)
    (alloc : List IndStr → TensorRef) (hP : P.size = 0) (hf : frm.r = 0) (hd : dst.r = 0)
    (hA : List.map IndStr.ext (alloc (newRange frm P)).range =
      List.map IndStr.ext (newRange frm P)) :
    (∀ (σ : Type) (DEBUG : Bool) (call : σ → Int → Int → σ) (fuel : Nat) (s : σ),
      permute DEBUG call fuel frm P dst s = .done (call s dst.data frm.data)) ∧
    (∀ (α : Type) (DEBUG : Bool) (fuel : Nat) (m : Mem α),
      ∃ m', permuteAssign DEBUG fuel frm P dst m = .done m' ∧ m' dst.data = m frm.data) ∧
    (∀ (α : Type) (DEBUG : Bool) (fuel : Nat) (m : Mem α),
      ∃ m', permuteNew alloc DEBUG fuel frm P m = .done (alloc (newRange frm P), m') ∧
        (alloc (newRange frm P)).r = 0 ∧ (alloc (newRange frm P)).size = 1 ∧
        m' (alloc (newRange frm P)).data = m frm.data) := by
  have key : ∀ (d : TensorRef), d.r = 0 → ∀ (σ : Type) (DEBUG : Bool)
      (call : σ → Int → Int → σ) (fuel : Nat) (s : σ),
      permute DEBUG call fuel frm P d s = .done (call s d.data frm.data) := by
    intro d hd0 σ DEBUG call fuel s
    have hc : shapeCheck frm P d = none := by
      have e1 : frm.range = [] := List.length_eq_zero.1 hf
      have e2 : d.range = [] := List.length_eq_zero.1 hd0
      unfold shapeCheck
      simp [hP, hf, hd0, TensorRef.size, e1, e2]
    unfold permute
    cases DEBUG <;> simp [hc, hP]
  have hnew : newRange frm P = [] := by
    unfold newRange; simp [hf]
  have hAr : (alloc (newRange frm P)).range = [] := by
    rw [hnew] at hA ⊢
    simpa using hA
  refine ⟨key dst hd, ?_, ?_⟩
  · intro α DEBUG fuel m
    refine ⟨_, key dst hd _ DEBUG (memCall assign) fuel m, ?_⟩
    simp [memCall, Mem.write, assign]
  · intro α DEBUG fuel m
    have hr0 : (alloc (newRange frm P)).r = 0 := by simp [TensorRef.r, hAr]
    refine ⟨memCall assign m (alloc (newRange frm P)).data frm.data, ?_, hr0, ?_, ?_⟩
    · unfold permuteNew permuteAssign
      rw [key _ hr0 _ DEBUG (memCall assign) fuel m]
    · simp [TensorRef.size, hAr]
    · simp [memCall, Mem.write, assign]

/-- C5, at a scalar source holding 5: one application, logged at (destination base, source
base), also with no fuel at all; assign leaves 5; the allocated array holds 5. -/
theorem permute_rank_zero_witness :
    (⟨[]⟩ : Permutation).size = 0 ∧ exScalarFrm.r = 0 ∧ exScalarDst.r = 0 ∧
    List.map IndStr.ext (exAllocAt 100 (newRange exScalarFrm ⟨[]⟩)).range =
      List.map IndStr.ext (newRange exScalarFrm ⟨[]⟩) ∧
    ((∀ (σ : Type) (DEBUG : Bool) (call : σ → Int → Int → σ) (fuel : Nat) (s : σ),
      permute DEBUG call fuel exScalarFrm ⟨[]⟩ exScalarDst s =
        .done (call s exScalarDst.data exScalarFrm.data)) ∧
    (∀ (α : Type) (DEBUG : Bool) (fuel : Nat) (m : Mem α),
      ∃ m', permuteAssign DEBUG fuel exScalarFrm ⟨[]⟩ exScalarDst m = .done m' ∧
        m' exScalarDst.data = m exScalarFrm.data) ∧
    (∀ (α : Type) (DEBUG : Bool) (fuel : Nat) (m : Mem α),
      ∃ m', permuteNew (exAllocAt 100) DEBUG fuel exScalarFrm ⟨[]⟩ m =
          .done (exAllocAt 100 (newRange exScalarFrm ⟨[]⟩), m') ∧
        (exAllocAt 100 (newRange exScalarFrm ⟨[]⟩)).r = 0 ∧
        (exAllocAt 100 (newRange exScalarFrm ⟨[]⟩)).size = 1 ∧
        m' (exAllocAt 100 (newRange exScalarFrm ⟨[]⟩)).data = m exScalarFrm.data)) ∧
    (permute true traceCall 0 exScalarFrm ⟨[]⟩ exScalarDst []).state? = some [(1, 0)] ∧
    (permuteNew (exAllocAt 100) true 0 exScalarFrm ⟨[]⟩ exScalarMem).state?.map
      (fun r => (r.1, r.2 100)) = some (⟨100, []⟩, 5) :=
  ⟨by decide, by decide, by decide, by decide,
   permute_rank_zero exScalarFrm exScalarDst ⟨[]⟩ (exAllocAt 100) rfl rfl rfl rfl,
   by decide, by decide⟩

/-- C6: on a valid input, after `permute(from, P, to, accumulate)` (unchecked build) every
destination element at the index vector `t` with `t[P.dest j] = i[j]` equals its value before
the call plus the source element at `i`. -/
theorem permute_plusEq_accumulates {α : Type} [Add α] (fuel : Nat)
    (frm : TensorRef) (P : Permutation) (dst : TensorRef) (m : Mem α)
    (hv : ValidShape frm P dst) (hinj : OffsetsInjective dst) (hno : NoOverlap frm dst)
    (hfuel : frm.size < fuel) :
    ∃ m', permute false (memCall plusEq) fuel frm P dst m = .done m' ∧
      ∀ i t, InRange frm i → t.length = frm.r →
        (∀ j, j < frm.r → t.getD (P.dest j) 0 = i.getD j 0) →
        m' (dst.data + ind dst t) = m (dst.data + ind dst t) + m (frm.data + ind frm i) :=
  permute_memCall plusEq fuel frm P dst m hv hinj hno hfuel

/-- C6, at the example of §8: extents (2,3), destination filled with 10, source filled with
5; every destination cell ends at 15. -/
theorem permute_plusEq_accumulates_witness :
    ValidShape exFrm exP exDst ∧ OffsetsInjective exDst ∧ NoOverlap exFrm exDst ∧
    exFrm.size < 7 ∧
    (∃ m', permute false (memCall plusEq) 7 exFrm exP exDst exMemAcc = .done m' ∧
      ∀ i t, InRange exFrm i → t.length = exFrm.r →
        (∀ j, j < exFrm.r → t.getD (exP.dest j) 0 = i.getD j 0) →
        m' (exDst.data + ind exDst t) =
          exMemAcc (exDst.data + ind exDst t) + exMemAcc (exFrm.data + ind exFrm i)) ∧
    (permute false (memCall plusEq) 7 exFrm exP exDst exMemAcc).state?.map
      (fun m' => List.map m' [6, 7, 8, 9, 10, 11]) = some [15, 15, 15, 15, 15, 15] :=
  ⟨by decide, exDst_injective, ex_noOverlap, by decide,
   permute_plusEq_accumulates 7 exFrm exP exDst exMemAcc (by decide) exDst_injective
     ex_noOverlap (by decide),
   by decide⟩

/-- C7: for a source array `X` with positive extents, a bijection `P` and a permutation
`Pinv` with `Pinv.dest (P.dest j) = j`, the allocating permute applied to `permute(X, P)` with
`Pinv` returns an array with the rank and extents of `X` and, at every index vector, the
element of `X`; each allocation is a newly owned array of the requested shape, and the build
is the unchecked one. -/
theorem permute_inverse_roundtrip {α : Type} (alloc1 alloc2 : List IndStr → TensorRef)
    (fuel : Nat) (X : TensorRef) (P Pinv : Permutation) (m : Mem α)
    (hr : P.size = X.r) (hP : P.IsBijection) (hpos : PosExtents X)
    (hIs : Pinv.size = X.r) (hinv : ∀ j, j < X.r → Pinv.dest (P.dest j) = j)
    (hA1 : FreshAlloc alloc1 X P) (hA2 : FreshAlloc alloc2 (alloc1 (newRange X P)) Pinv)
    (hfuel : X.size < fuel) :
    ∃ Y m1 Z m2, permuteNew alloc1 false fuel X P m = .done (Y, m1) ∧
      permuteNew alloc2 false fuel Y Pinv m1 = .done (Z, m2) ∧
      Z.r = X.r ∧ (∀ j, j < X.r → Z.extent j = X.extent j) ∧
      ∀ i, InRange X i → m2 (Z.data + ind Z i) = m (X.data + ind X i) := by
  obtain ⟨hv1, m1, h1, g1⟩ := permuteNew_spec alloc1 fuel X P m hr hP hpos hA1 hfuel
  have hPinv : Pinv.IsBijection :=
    isBijection_of_inverse hP (hIs.trans hr.symm) (fun j hj => hinv j (hr ▸ hj))
  have hsize : (alloc1 (newRange X P)).size = X.size :=
    size_eq_of_extents hP hr hv1.2.1 hv1.2.2.2.2
  obtain ⟨hv2, m2, h2, g2⟩ := permuteNew_spec alloc2 fuel (alloc1 (newRange X P)) Pinv m1
    (hIs.trans hv1.2.1.symm) hPinv (posExtents_of_validShape hv1) hA2 (hsize ▸ hfuel)
  refine ⟨_, m1, _, m2, h1, h2, hv2.2.1.trans hv1.2.1, ?_, ?_⟩
  · intro j hj
    have e := hv2.2.2.2.2 (P.dest j) (by rw [hv1.2.1, ← hr]; exact hP.1 j (hr ▸ hj))
    rw [hinv j hj] at e
    rw [e]
    exact hv1.2.2.2.2 j hj
  · intro i hi
    have hu := inRange_permIdx hv1 hi
    have e := g2 (permIdx P i) hu
    rw [permIdx_permIdx hP hPinv (hIs.trans hr.symm) i i (hi.1.trans hr.symm)
      (fun j hj => by rw [hinv j (hr ▸ hj)])] at e
    rw [e]
    exact g1 i hi

/-- C7, at the end-to-end example: swapping the axes twice gives back the six elements, in
an array of extents (2,3). -/
theorem permute_inverse_roundtrip_witness :
    exP.size = exFrm.r ∧ exP.IsBijection ∧ PosExtents exFrm ∧
    (∀ j, j < exFrm.r → exP.dest (exP.dest j) = j) ∧
    FreshAlloc (exAllocAt 100) exFrm exP ∧
    FreshAlloc (exAllocAt 200) (exAllocAt 100 (newRange exFrm exP)) exP ∧ exFrm.size < 7 ∧
    (∃ Y m1 Z m2, permuteNew (exAllocAt 100) false 7 exFrm exP exMem = .done (Y, m1) ∧
      permuteNew (exAllocAt 200) false 7 Y exP m1 = .done (Z, m2) ∧
      Z.r = exFrm.r ∧ (∀ j, j < exFrm.r → Z.extent j = exFrm.extent j) ∧
      ∀ i, InRange exFrm i → m2 (Z.data + ind Z i) = exMem (exFrm.data + ind exFrm i)) ∧
    ((permuteNew (exAllocAt 100) false 7 exFrm exP exMem).state?.bind
      (fun r => (permuteNew (exAllocAt 200) false 7 r.1 exP r.2).state?)).map
      (fun r => (r.1, List.map (fun i => r.2 (r.1.data + ind r.1 i))
        [[0, 0], [0, 1], [0, 2], [1, 0], [1, 1], [1, 2]])) =
      some (⟨200, [⟨2, 1⟩, ⟨3, 2⟩]⟩, [1, 2, 3, 4, 5, 6]) :=
  ⟨by decide, by decide, by decide, by decide, exAlloc_fresh, exAlloc_fresh_again, by decide,
   permute_inverse_roundtrip (exAllocAt 100) (exAllocAt 200) 7 exFrm exP exP exMem
     (by decide) (by decide) (by decide) (by decide) (by decide) exAlloc_fresh
     exAlloc_fresh_again (by decide),
   by decide⟩

/-- C8: permuting a source array `X` with positive extents by the identity permutation, with
assign, into a newly owned array returns an array with the rank and extents of `X` and, at
every index vector, the element of `X`, whatever the strides of the two arrays (unchecked
build). -/
theorem permute_identity_copies {α : Type} (alloc : List IndStr → TensorRef)
    (fuel : Nat) (X : TensorRef) (P : Permutation) (m : Mem α)
    (hr : P.size = X.r) (hid : ∀ j, j < X.r → P.dest j = j) (hpos : PosExtents X)
    (hA : FreshAlloc alloc X P) (hfuel : X.size < fuel) :
    ∃ Y m', permuteNew alloc false fuel X P m = .done (Y, m') ∧
      Y.r = X.r ∧ (∀ j, j < X.r → Y.extent j = X.extent j) ∧
      ∀ i, InRange X i → m' (Y.data + ind Y i) = m (X.data + ind X i) := by
  have hid' : ∀ j, j < P.size → P.dest j = j := fun j hj => hid j (hr ▸ hj)
  have hP := isBijection_of_id hid'
  obtain ⟨hv, m', h1, g1⟩ := permuteNew_spec alloc fuel X P m hr hP hpos hA hfuel
  refine ⟨_, m', h1, hv.2.1, ?_, ?_⟩
  · intro j hj
    have := hv.2.2.2.2 j hj
    rwa [hid j hj] at this
  · intro i hi
    have := g1 i hi
    rwa [permIdx_of_id hid' hP i (hi.1.trans hr.symm)] at this

/-- C8, at the end-to-end source: the identity permutation copies the six elements into an
array of extents (2,3) with other strides. -/
theorem permute_identity_copies_witness :
    exId.size = exFrm.r ∧ (∀ j, j < exFrm.r → exId.dest j = j) ∧ PosExtents exFrm ∧
    FreshAlloc (exAllocAt 100) exFrm exId ∧ exFrm.size < 7 ∧
    (∃ Y m', permuteNew (exAllocAt 100) false 7 exFrm exId exMem = .done (Y, m') ∧
      Y.r = exFrm.r ∧ (∀ j, j < exFrm.r → Y.extent j = exFrm.extent j) ∧
      ∀ i, InRange exFrm i → m' (Y.data + ind Y i) = exMem (exFrm.data + ind exFrm i)) ∧
    (permuteNew (exAllocAt 100) false 7 exFrm exId exMem).state?.map
      (fun r => (r.1, List.map (fun i => r.2 (r.1.data + ind r.1 i))
        [[0, 0], [0, 1], [0, 2], [1, 0], [1, 1], [1, 2]])) =
      some (⟨100, [⟨2, 1⟩, ⟨3, 2⟩]⟩, [1, 2, 3, 4, 5, 6]) :=
  ⟨by decide, by decide, by decide, exAlloc_fresh_id, by decide,
   permute_identity_copies (exAllocAt 100) 7 exFrm exId exMem (by decide) (by decide)
     (by decide) exAlloc_fresh_id (by decide),
   by decide⟩

/-- C9: for a source view of rank `r` (positive extents) and a bijection `P` on its axes, the
allocating `permute(from, P)` (unchecked build) returns an array of rank `r` whose extent at
axis `P.dest j` is the source extent at axis `j`, for every `j`, and whose total element count
is that of the source; the allocator returns an array of the requested extents. -/
theorem permuteNew_shape {α : Type} (alloc : List IndStr → TensorRef) (fuel : Nat)
    (frm : TensorRef) (P : Permutation) (m : Mem α)
    (hr : P.size = frm.r) (hP : P.IsBijection) (hpos : PosExtents frm)
    (hA : List.map IndStr.ext (alloc (newRange frm P)).range =
      List.map IndStr.ext (newRange frm P))
    (hfuel : frm.size < fuel) :
    ∃ Y m', permuteNew alloc false fuel frm P m = .done (Y, m') ∧
      Y.r = frm.r ∧ (∀ j, j < frm.r → Y.extent (P.dest j) = frm.extent j) ∧
      Y.size = frm.size := by
  have hs := alloc_shape alloc hP hr hA
  refine ⟨alloc (newRange frm P), applyPairs (memCall assign) m
    (cells frm P (alloc (newRange frm P))), ?_, hs.1, hs.2,
    size_eq_of_extents hP hr hs.1 hs.2⟩
  unfold permuteNew permuteAssign
  rw [permute_done (memCall assign) fuel frm P _ m ⟨hr, hs.1, hP, hpos, hs.2⟩ hfuel]

/-- C9, at the end-to-end example: the returned array has extents (3,2) and six elements. -/
theorem permuteNew_shape_witness :
    exP.size = exFrm.r ∧ exP.IsBijection ∧ PosExtents exFrm ∧
    List.map IndStr.ext (exAllocAt 100 (newRange exFrm exP)).range =
      List.map IndStr.ext (newRange exFrm exP) ∧ exFrm.size < 7 ∧
    (∃ Y m', permuteNew (exAllocAt 100) false 7 exFrm exP exMem = .done (Y, m') ∧
      Y.r = exFrm.r ∧ (∀ j, j < exFrm.r → Y.extent (exP.dest j) = exFrm.extent j) ∧
      Y.size = exFrm.size) ∧
    (permuteNew (exAllocAt 100) false 7 exFrm exP exMem).state?.map
      (fun r => (r.1, r.1.size)) = some (⟨100, [⟨3, 1⟩, ⟨2, 3⟩]⟩, 6) :=
  ⟨by decide, by decide, by decide, by decide, by decide,
   permuteNew_shape (exAllocAt 100) 7 exFrm exP exMem (by decide) (by decide) (by decide)
     (by decide) (by decide),
   by decide⟩

/-- C10: for non-empty label lists of equal length that name the same distinct labels, the
label overload has the effect of the engine called with the permutation `P` in which
`P.dest j` is the position in `tL` of the label `fL[j]`, for every callable, fuel, storage
and build. -/
theorem permuteLabel_eq_permute {α : Type} (DEBUG : Bool) (call : Mem α → Int → Int → Mem α)
    (fuel : Nat) (frm : TensorRef) (fL : Label) (dst : TensorRef) (tL : Label) (m : Mem α)
    (P : Permutation) (hne : fL ≠ []) (hlen : fL.length = tL.length)
    (hsame : SameLabels fL tL) (hPs : P.size = fL.length)
    (hPd : ∀ j, j < fL.length → P.dest j < tL.length ∧ tL.getD (P.dest j) 0 = fL.getD j 0) :
    permuteLabel DEBUG call fuel frm fL dst tL m = permute DEBUG call fuel frm P dst m := by
  have hcalc : calc_permutation DEBUG fL tL (Permutation.ofSize fL.length) = .ok P := by
    unfold calc_permutation
    rw [if_neg (fun h => h.2 hsame)]
    congr 1
    have hext : ∀ (A B : Permutation), A.store = B.store → A = B := by
      intro A B h; cases A; cases B; simp_all
    apply hext
    rw [calc_permutation_store]
    apply List.ext_getElem (by simpa [Permutation.size] using hPs.symm)
    intro n h1 h2
    have hn : n < fL.length := by simpa using h1
    obtain ⟨hlt, hget⟩ := hPd n hn
    simp only [Permutation.dest] at hlt hget
    rw [List.getD_eq_getElem _ _ h2] at hlt hget
    rw [List.getD_eq_getElem _ _ hlt] at hget
    simp only [List.getElem_map, List.getElem_range]
    rw [← hget]
    exact List.indexOf_getElem hsame.2.1 _ hlt
  unfold permuteLabel
  rw [if_neg (fun h => h.2 hlen), if_neg (by simpa using hne), hcalc]

/-- C10, at the labels (7,8) and (8,7): the label overload is the engine with the swap. -/
theorem permuteLabel_eq_permute_witness :
    ([7, 8] : Label) ≠ [] ∧ ([7, 8] : Label).length = ([8, 7] : Label).length ∧
    SameLabels [7, 8] [8, 7] ∧ exP.size = ([7, 8] : Label).length ∧
    (∀ j, j < ([7, 8] : Label).length →
      exP.dest j < ([8, 7] : Label).length ∧
        ([8, 7] : Label).getD (exP.dest j) 0 = ([7, 8] : Label).getD j 0) ∧
    permuteLabel true (memCall plusEq) 7 exFrm [7, 8] exDst [8, 7] exMemAcc =
      permute true (memCall plusEq) 7 exFrm exP exDst exMemAcc ∧
    (permuteLabel true (memCall plusEq) 7 exFrm [7, 8] exDst [8, 7] exMem).state?.map
      (fun m' => List.map m' [6, 7, 8, 9, 10, 11]) = some [1, 4, 2, 5, 3, 6] :=
  ⟨by decide, by decide, by decide, by decide, by decide,
   permuteLabel_eq_permute true (memCall plusEq) 7 exFrm [7, 8] exDst [8, 7] exMemAcc exP
     (by decide) (by decide) (by decide) (by decide) (by decide),
   by decide⟩

/-- C11: in the checked build the label overload throws, with the storage as it was before
the call, whenever the two label lists differ in length or do not name the same labels each
exactly once, whatever the callable and the fuel. -/
theorem permuteLabel_checked_rejects {α : Type} (call : Mem α → Int → Int → Mem α)
    (fuel : Nat) (frm : TensorRef) (fL : Label) (dst : TensorRef) (tL : Label) (m : Mem α)
    (h : fL.length ≠ tL.length ∨ ¬ SameLabels fL tL) :
    ∃ msg, permuteLabel true call fuel frm fL dst tL m = .thrown msg m := by
  unfold permuteLabel
  by_cases hlen : fL.length ≠ tL.length
  · exact ⟨_, if_pos ⟨rfl, hlen⟩⟩
  · rw [if_neg (fun hh => hlen hh.2)]
    have hns : ¬ SameLabels fL tL := by
      rcases h with h | h
      · exact absurd h hlen
      · exact h
    have hne : fL.isEmpty = false := by
      cases fL with
      | nil =>
        exfalso
        apply hns
        have ht : tL = [] := by
          rw [not_not] at hlen
          exact List.length_eq_zero.1 hlen.symm
        subst ht
        exact ⟨List.nodup_nil, List.nodup_nil, fun _ hx => hx, fun _ hx => hx⟩
      | cons a l => rfl
    rw [hne]
    simp only [Bool.false_eq_true, if_false]
    have hc : calc_permutation true fL tL (Permutation.ofSize fL.length) =
        .error "LabelMismatch" := by
      unfold calc_permutation
      exact if_pos ⟨rfl, hns⟩
    rw [hc]
    exact ⟨_, rfl⟩

/-- C11, at a duplicated label and at lists of different length: the checked label overload
throws and the storage read back is the storage given. -/
theorem permuteLabel_checked_rejects_witness :
    ((([7, 7] : Label).length ≠ ([7, 8] : Label).length ∨ ¬ SameLabels [7, 7] [7, 8]) ∧
      ∃ msg, permuteLabel true (memCall plusEq) 7 exFrm [7, 7] exDst [7, 8] exMemAcc =
        .thrown msg exMemAcc) ∧
    (permuteLabel true (memCall plusEq) 7 exFrm [7, 8] exDst [7] exMemAcc).thrownState?.map
      (fun m' => List.map m' [6, 7, 8, 9, 10, 11]) = some [10, 10, 10, 10, 10, 10] :=
  ⟨⟨by decide, permuteLabel_checked_rejects (memCall plusEq) 7 exFrm [7, 7] exDst [7, 8]
      exMemAcc (by decide)⟩, by decide⟩

/-- C12: on a valid input, two runs of `permute` with assign from storages that agree on the
source elements, whatever they hold elsewhere, return storages that agree on every cell
addressed by the destination view (unchecked build). -/
theorem permute_assign_ignores_destination {α : Type} (fuel : Nat)
    (frm : TensorRef) (P : Permutation) (dst : TensorRef) (m1 m2 : Mem α)
    (hv : ValidShape frm P dst) (hinj : OffsetsInjective dst) (hno : NoOverlap frm dst)
    (hfuel : frm.size < fuel)
    (hsrc : ∀ i, InRange frm i → m1 (frm.data + ind frm i) = m2 (frm.data + ind frm i)) :
    ∃ m1' m2', permuteAssign false fuel frm P dst m1 = .done m1' ∧
      permuteAssign false fuel frm P dst m2 = .done m2' ∧
      ∀ t, InRange dst t → m1' (dst.data + ind dst t) = m2' (dst.data + ind dst t) := by
  obtain ⟨m1', h1, g1⟩ := permute_memCall assign fuel frm P dst m1 hv hinj hno hfuel
  obtain ⟨m2', h2, g2⟩ := permute_memCall assign fuel frm P dst m2 hv hinj hno hfuel
  refine ⟨m1', m2', h1, h2, ?_⟩
  intro t ht
  obtain ⟨i, hi, rfl⟩ := exists_inRange_permIdx hv ht
  have hl : (permIdx P i).length = frm.r := (length_permIdx P i).trans hv.1
  have hg : ∀ j, j < frm.r → (permIdx P i).getD (P.dest j) 0 = i.getD j 0 :=
    fun j hj => getD_permIdx hv.2.2.1 i j (hv.1 ▸ hj)
  rw [g1 i _ hi hl hg, g2 i _ hi hl hg]
  exact hsrc i hi

/-- C12, at the end-to-end example with the destination first holding zeros and then holding
other values: both runs leave `[[1,4],[2,5],[3,6]]`. -/
theorem permute_assign_ignores_destination_witness :
    ValidShape exFrm exP exDst ∧ OffsetsInjective exDst ∧ NoOverlap exFrm exDst ∧
    exFrm.size < 7 ∧
    (∀ i, InRange exFrm i →
      exMem (exFrm.data + ind exFrm i) = exMemOther (exFrm.data + ind exFrm i)) ∧
    (∃ m1' m2', permuteAssign false 7 exFrm exP exDst exMem = .done m1' ∧
      permuteAssign false 7 exFrm exP exDst exMemOther = .done m2' ∧
      ∀ t, InRange exDst t → m1' (exDst.data + ind exDst t) = m2' (exDst.data + ind exDst t)) ∧
    (permuteAssign false 7 exFrm exP exDst exMemOther).state?.map
      (fun m' => List.map m' [6, 7, 8, 9, 10, 11]) = some [1, 4, 2, 5, 3, 6] :=
  ⟨by decide, exDst_injective, ex_noOverlap, by decide, exMem_agree,
   permute_assign_ignores_destination 7 exFrm exP exDst exMem exMemOther (by decide)
     exDst_injective ex_noOverlap (by decide) exMem_agree,
   by decide⟩

/-- C13: on a valid input with non-overlapping storage, for every callable that stores only
into its destination cell (`memCall f`), the engine leaves every source element unchanged and
every storage slot that is not the address of an in-range destination index vector unchanged
(unchecked build). The views and the permutation are arguments passed by value or constant
reference: the call returns the storage alone. -/
theorem permute_frame {α : Type} (f : α → α → α) (fuel : Nat)
    (frm : TensorRef) (P : Permutation) (dst : TensorRef) (m : Mem α)
    (hv : ValidShape frm P dst) (hno : NoOverlap frm dst) (hfuel : frm.size < fuel) :
    ∃ m', permute false (memCall f) fuel frm P dst m = .done m' ∧
      (∀ i, InRange frm i → m' (frm.data + ind frm i) = m (frm.data + ind frm i)) ∧
      ∀ a, (∀ t, InRange dst t → a ≠ dst.data + ind dst t) → m' a = m a := by
  refine ⟨_, permute_done (memCall f) fuel frm P dst m hv hfuel, ?_, ?_⟩
  · intro i hi
    apply applyPairs_memCall_other
    intro hmem
    obtain ⟨p, hp, hpe⟩ := List.mem_map.1 hmem
    obtain ⟨u, hu, rfl⟩ := exists_of_mem_cells hv hp
    exact hno i (permIdx P u) hi (inRange_permIdx hv hu) hpe
  · intro a ha
    apply applyPairs_memCall_other
    intro hmem
    obtain ⟨p, hp, hpe⟩ := List.mem_map.1 hmem
    obtain ⟨u, hu, rfl⟩ := exists_of_mem_cells hv hp
    exact ha (permIdx P u) (inRange_permIdx hv hu) hpe.symm

/-- C13, at the accumulate example: the source still reads 5 everywhere, and the slots next
to the destination still hold 10. -/
theorem permute_frame_witness :
    ValidShape exFrm exP exDst ∧ NoOverlap exFrm exDst ∧ exFrm.size < 7 ∧
    (∃ m', permute false (memCall plusEq) 7 exFrm exP exDst exMemAcc = .done m' ∧
      (∀ i, InRange exFrm i →
        m' (exFrm.data + ind exFrm i) = exMemAcc (exFrm.data + ind exFrm i)) ∧
      ∀ a, (∀ t, InRange exDst t → a ≠ exDst.data + ind exDst t) → m' a = exMemAcc a) ∧
    (permute false (memCall plusEq) 7 exFrm exP exDst exMemAcc).state?.map
      (fun m' => List.map m' [-1, 0, 1, 2, 3, 4, 5, 12, 13]) =
      some [10, 5, 5, 5, 5, 5, 5, 10, 10] :=
  ⟨by decide, ex_noOverlap, by decide,
   permute_frame plusEq 7 exFrm exP exDst exMemAcc (by decide) ex_noOverlap (by decide),
   by decide⟩

/-- C14: for a source of rank at least 1, the big axis found by the scan of lines 84-91 is an
axis, `bigsize` is its extent, that extent is at least every extent and strictly greater
than the extent of every axis with a smaller index: the first axis of maximal extent. -/
theorem findBig_first_max (frm : TensorRef) (hr : 0 < frm.r) :
    (findBig frm frm.r).1 < frm.r ∧
    (findBig frm frm.r).2 = frm.extent (findBig frm frm.r).1 ∧
    (∀ j, j < frm.r → frm.extent j ≤ (findBig frm frm.r).2) ∧
    ∀ j, j < (findBig frm frm.r).1 → frm.extent j < (findBig frm frm.r).2 := by
  have h1 := findBig_spec frm frm.r hr
  have h2 := findBig_fold_max frm (frm.r - 1)
  refine ⟨h1.1, h1.2, fun j hj => ?_, fun j hj => ?_⟩
  · exact h2.1 j (by omega)
  · exact h2.2 j hj

/-- C14, at extents (2,3), where the second axis wins, and at extents (3,3,2), where the tie
goes to the first axis. -/
theorem findBig_first_max_witness :
    0 < exFrm.r ∧
    ((findBig exFrm exFrm.r).1 < exFrm.r ∧
    (findBig exFrm exFrm.r).2 = exFrm.extent (findBig exFrm exFrm.r).1 ∧
    (∀ j, j < exFrm.r → exFrm.extent j ≤ (findBig exFrm exFrm.r).2) ∧
    ∀ j, j < (findBig exFrm exFrm.r).1 → exFrm.extent j < (findBig exFrm exFrm.r).2) ∧
    findBig exFrm exFrm.r = (1, 3) ∧ findBig exTieFrm exTieFrm.r = (0, 3) :=
  ⟨by decide, findBig_first_max exFrm (by decide), by decide, by decide⟩

/-- C15: on a valid input of rank at least 1 the engine, with its pinned big axis and its
pointer stepping, does what the naive loop over all index vectors does: there is a list `L`
holding every in-range source index vector exactly once, of length the product of the source
extents, such that for every callable the engine returns the callable applied, for each `i`
of `L` in turn, at the destination offset `ind(to, t)` with `t[P.dest j] = i[j]` and the
source offset `ind(from, i)`; and the offset at big-axis index 0 plus `b` strides of the big
axis is the offset of the index vector whose big-axis component is `b` (unchecked build). -/
theorem permute_is_naive_loop (fuel : Nat) (frm : TensorRef) (P : Permutation)
    (dst : TensorRef) (hv : ValidShape frm P dst) (hr : 0 < frm.r) (hfuel : frm.size < fuel) :
    (∃ L : List (List Int), L.Nodup ∧ (∀ i, i ∈ L ↔ InRange frm i) ∧ L.length = frm.size ∧
      ∀ (σ : Type) (call : σ → Int → Int → σ) (s : σ),
        permute false call fuel frm P dst s =
          .done (L.foldl (fun s i =>
            call s (dst.data + ind dst (permIdx P i)) (frm.data + ind frm i)) s)) ∧
    (∀ i, InRange frm i → (permIdx P i).length = frm.r ∧
      ∀ j, j < frm.r → (permIdx P i).getD (P.dest j) 0 = i.getD j 0) ∧
    ∀ (c : List Int) (b : Nat), c.length = frm.r → c.getD (findBig frm frm.r).1 0 = 0 →
      ind frm c + (b : Int) * frm.stride (findBig frm frm.r).1 =
        ind frm (c.set (findBig frm frm.r).1 (b : Int)) ∧
      ind dst (permIdx P c) + (b : Int) * dst.stride (P.dest (findBig frm frm.r).1) =
        ind dst (permIdx P (c.set (findBig frm frm.r).1 (b : Int))) := by
  obtain ⟨hs, hd, hP, hpos, he⟩ := hv
  refine ⟨⟨allIdx frm, nodup_allIdx frm, mem_allIdx frm hpos, length_allIdx frm hpos, ?_⟩,
    ?_, ?_⟩
  · intro σ call s
    rw [permute_done call fuel frm P dst s ⟨hs, hd, hP, hpos, he⟩ hfuel]
    simp only [cells, applyPairs, List.foldl_map, cellPair]
  · intro i _
    exact ⟨(length_permIdx P i).trans hs, fun j hj => getD_permIdx hP i j (hs ▸ hj)⟩
  · intro c b hc hc0
    have := cellPair_step hP frm dst hs hd _ (findBig_spec frm frm.r hr).1 c hc hc0 b
    simp only [cellPair, Prod.mk.injEq] at this
    constructor
    · have h2 := this.2; omega
    · have h1 := this.1; omega

/-- C15, at the end-to-end example: six applications, at the offsets of the six index
vectors. -/
theorem permute_is_naive_loop_witness :
    ValidShape exFrm exP exDst ∧ 0 < exFrm.r ∧ exFrm.size < 7 ∧
    ((∃ L : List (List Int), L.Nodup ∧ (∀ i, i ∈ L ↔ InRange exFrm i) ∧
      L.length = exFrm.size ∧
      ∀ (σ : Type) (call : σ → Int → Int → σ) (s : σ),
        permute false call 7 exFrm exP exDst s =
          .done (L.foldl (fun s i =>
            call s (exDst.data + ind exDst (permIdx exP i)) (exFrm.data + ind exFrm i)) s)) ∧
    (∀ i, InRange exFrm i → (permIdx exP i).length = exFrm.r ∧
      ∀ j, j < exFrm.r → (permIdx exP i).getD (exP.dest j) 0 = i.getD j 0) ∧
    ∀ (c : List Int) (b : Nat), c.length = exFrm.r →
      c.getD (findBig exFrm exFrm.r).1 0 = 0 →
      ind exFrm c + (b : Int) * exFrm.stride (findBig exFrm exFrm.r).1 =
        ind exFrm (c.set (findBig exFrm exFrm.r).1 (b : Int)) ∧
      ind exDst (permIdx exP c) + (b : Int) * exDst.stride (exP.dest (findBig exFrm exFrm.r).1) =
        ind exDst (permIdx exP (c.set (findBig exFrm exFrm.r).1 (b : Int)))) ∧
    (permute false traceCall 7 exFrm exP exDst []).state? =
      some [(6, 0), (8, 1), (10, 2), (7, 3), (9, 4), (11, 5)] :=
  ⟨by decide, by decide, by decide,
   permute_is_naive_loop 7 exFrm exP exDst (by decide) (by decide) (by decide),
   by decide⟩

/-- C16: on a valid input of rank at least 1 the odometer passes, advance by advance and each
exactly once, through the index vectors `c` with `c[bigind] = 0` and
`0 ≤ c[j] ≤ extent(j) - 1` on every other axis, in mixed-radix order with axis 0 fastest, and
is terminal after the last of them; and the log of the applications of the callable is, for
each such `c` in that order, the cells at the big-axis indices `0, 1, ..., bigsize - 1` in
ascending order (unchecked build). -/
theorem permute_visits_in_odometer_order (fuel : Nat) (frm : TensorRef) (P : Permutation)
    (dst : TensorRef) (hv : ValidShape frm P dst) (hr : 0 < frm.r) (hfuel : frm.size < fuel) :
    ∃ V : List (List Int), V.Pairwise colexLt ∧ V.Nodup ∧
      (∀ c, c ∈ V ↔ c.length = frm.r ∧ c.getD (findBig frm frm.r).1 0 = 0 ∧
        ∀ j, j < frm.r → j ≠ (findBig frm frm.r).1 →
          0 ≤ c.getD j 0 ∧ c.getD j 0 ≤ (frm.extent j : Int) - 1) ∧
      (∀ k, k < V.length →
        (GCounter.advance^[k] (mkCounter frm frm.r (findBig frm frm.r).1)).notDone = true ∧
        V[k]? = some (GCounter.advance^[k] (mkCounter frm frm.r (findBig frm frm.r).1)).i) ∧
      (GCounter.advance^[V.length] (mkCounter frm frm.r (findBig frm frm.r).1)).notDone =
        false ∧
      permute false traceCall fuel frm P dst [] =
        .done (V.flatMap (fun c => List.map
          (fun b : Nat =>
            (dst.data + ind dst (permIdx P (c.set (findBig frm frm.r).1 (b : Int))),
             frm.data + ind frm (c.set (findBig frm frm.r).1 (b : Int))))
          (List.range (findBig frm frm.r).2))) := by
  obtain ⟨hs, hd, hP, hpos, he⟩ := hv
  have hbig := findBig_spec frm frm.r hr
  have hrun := odometer_run frm hr
  refine ⟨box (List.replicate frm.r 0) (lastsOf frm frm.r (findBig frm frm.r).1),
    pairwise_box _ _, nodup_box _ _, ?_, hrun.1, hrun.2, ?_⟩
  · intro c
    rw [mem_engine_box frm _ hbig.1]
    constructor
    · rintro ⟨h1, h2, h3⟩
      refine ⟨h1, h2, fun j hj hne => ?_⟩
      have := h3 j hj hne
      have := hpos j hj
      omega
    · rintro ⟨h1, h2, h3⟩
      refine ⟨h1, h2, fun j hj hne => ?_⟩
      have := h3 j hj hne
      omega
  · rw [permute_eq_applyPairs traceCall fuel frm P dst [] hP hs hd hr
      (lt_of_le_of_lt (states_le_size frm hpos) hfuel), applyPairs_traceCall]
    simp only [List.nil_append, visitOrder, List.map_flatMap, List.map_map]
    rfl

/-- C16, at extents (3,3,2) with the identity permutation: the odometer states are
(0,0,0), (0,1,0), (0,2,0), (0,0,1), (0,1,1), (0,2,1), and the log starts with the three
cells of the first state. -/
theorem permute_visits_in_odometer_order_witness :
    ValidShape exTieFrm exId3 exTieDst ∧ 0 < exTieFrm.r ∧ exTieFrm.size < 19 ∧
    (∃ V : List (List Int), V.Pairwise colexLt ∧ V.Nodup ∧
      (∀ c, c ∈ V ↔ c.length = exTieFrm.r ∧ c.getD (findBig exTieFrm exTieFrm.r).1 0 = 0 ∧
        ∀ j, j < exTieFrm.r → j ≠ (findBig exTieFrm exTieFrm.r).1 →
          0 ≤ c.getD j 0 ∧ c.getD j 0 ≤ (exTieFrm.extent j : Int) - 1) ∧
      (∀ k, k < V.length →
        (GCounter.advance^[k]
          (mkCounter exTieFrm exTieFrm.r (findBig exTieFrm exTieFrm.r).1)).notDone = true ∧
        V[k]? = some (GCounter.advance^[k]
          (mkCounter exTieFrm exTieFrm.r (findBig exTieFrm exTieFrm.r).1)).i) ∧
      (GCounter.advance^[V.length]
        (mkCounter exTieFrm exTieFrm.r (findBig exTieFrm exTieFrm.r).1)).notDone = false ∧
      permute false traceCall 19 exTieFrm exId3 exTieDst [] =
        .done (V.flatMap (fun c => List.map
          (fun b : Nat =>
            (exTieDst.data +
              ind exTieDst (permIdx exId3 (c.set (findBig exTieFrm exTieFrm.r).1 (b : Int))),
             exTieFrm.data + ind exTieFrm (c.set (findBig exTieFrm exTieFrm.r).1 (b : Int))))
          (List.range (findBig exTieFrm exTieFrm.r).2)))) ∧
    List.map (fun k => (GCounter.advance^[k] (mkCounter exTieFrm 3 0)).i) [0, 1, 2, 3, 4, 5] =
      [[0, 0, 0], [0, 1, 0], [0, 2, 0], [0, 0, 1], [0, 1, 1], [0, 2, 1]] ∧
    (GCounter.advance^[6] (mkCounter exTieFrm 3 0)).notDone = false ∧
    (permute false traceCall 19 exTieFrm exId3 exTieDst []).state?.map (List.take 7) =
      some [(100, 0), (101, 1), (102, 2), (103, 3), (104, 4), (105, 5), (106, 6)] :=
  ⟨by decide, by decide, by decide,
   permute_visits_in_odometer_order 19 exTieFrm exId3 exTieDst (by decide) (by decide)
     (by decide),
   by decide, by decide, by decide⟩

/-- C17: for a source of rank `r ≥ 0` with positive extents and a permutation of size `r`,
the engine returns, for every callable, once the fuel exceeds the number of passes of the
outer loop, (product of extents) / bigsize; for `r ≥ 1` the odometer is not terminal after
fewer than (product of extents) / bigsize advances and terminal after exactly that many; and
every run of the inner loop applies the callable exactly `bigsize` times (unchecked build). -/
theorem permute_terminates (frm : TensorRef) (P : Permutation) (dst : TensorRef)
    (hs : P.size = frm.r) (hpos : PosExtents frm) :
    (∀ (σ : Type) (call : σ → Int → Int → σ) (s : σ) (fuel : Nat),
      frm.size / (findBig frm frm.r).2 < fuel →
      ∃ s', permute false call fuel frm P dst s = .done s') ∧
    (0 < frm.r →
      (∀ k, k < frm.size / (findBig frm frm.r).2 →
        (GCounter.advance^[k] (mkCounter frm frm.r (findBig frm frm.r).1)).notDone = true) ∧
      (GCounter.advance^[frm.size / (findBig frm frm.r).2]
        (mkCounter frm frm.r (findBig frm frm.r).1)).notDone = false) ∧
    ∀ (stepto stepfrom pto pfrom : Int),
      ∃ log, innerLoop false traceCall frm dst stepto stepfrom (findBig frm frm.r).2
          pto pfrom [] = .done log ∧ log.length = (findBig frm frm.r).2 := by
  refine ⟨?_, ?_, ?_⟩
  · intro σ call s fuel hfuel
    by_cases h0 : frm.r = 0
    · refine ⟨call s dst.data frm.data, ?_⟩
      unfold permute
      simp [hs, h0]
    · have hr : 0 < frm.r := Nat.pos_of_ne_zero h0
      have hne : P.size ≠ 0 := by omega
      rw [← states_eq_div frm hr hpos] at hfuel
      have hbox := first_cons_after (List.replicate frm.r 0)
        (lastsOf frm frm.r (findBig frm frm.r).1) (by simp [length_lastsOf])
      unfold permute
      simp only [Bool.false_eq_true, if_false, hne]
      rw [hs, mkCounter_eq frm frm.r _ hr, outerLoop_false]
      exact ⟨_, outerPlain_done call frm P dst frm.r _ _ _ fuel _ _ s rfl (by
          simp only
          rw [← hbox] at hfuel
          simpa using hfuel)⟩
  · intro hr
    have hrun := odometer_run frm hr
    rw [states_eq_div frm hr hpos] at hrun
    exact ⟨fun k hk => (hrun.1 k hk).1, hrun.2⟩
  · intro stepto stepfrom pto pfrom
    obtain ⟨log, h1, h2⟩ := innerLoop_trace_length frm dst stepto stepfrom
      (findBig frm frm.r).2 pto pfrom []
    exact ⟨log, h1, by simpa using h2⟩

/-- C17, at the end-to-end example: 6 / 3 = 2 passes of the outer loop, so the engine
returns with fuel 3 and not with fuel 2, and the odometer is terminal after 2 advances. -/
theorem permute_terminates_witness :
    exP.size = exFrm.r ∧ PosExtents exFrm ∧
    ((∀ (σ : Type) (call : σ → Int → Int → σ) (s : σ) (fuel : Nat),
      exFrm.size / (findBig exFrm exFrm.r).2 < fuel →
      ∃ s', permute false call fuel exFrm exP exDst s = .done s') ∧
    (0 < exFrm.r →
      (∀ k, k < exFrm.size / (findBig exFrm exFrm.r).2 →
        (GCounter.advance^[k]
          (mkCounter exFrm exFrm.r (findBig exFrm exFrm.r).1)).notDone = true) ∧
      (GCounter.advance^[exFrm.size / (findBig exFrm exFrm.r).2]
        (mkCounter exFrm exFrm.r (findBig exFrm exFrm.r).1)).notDone = false) ∧
    ∀ (stepto stepfrom pto pfrom : Int),
      ∃ log, innerLoop false traceCall exFrm exDst stepto stepfrom (findBig exFrm exFrm.r).2
          pto pfrom [] = .done log ∧ log.length = (findBig exFrm exFrm.r).2) ∧
    exFrm.size / (findBig exFrm exFrm.r).2 = 2 ∧
    (permute false traceCall 3 exFrm exP exDst []).state?.map List.length = some 6 ∧
    (permute false traceCall 2 exFrm exP exDst []).state? = none :=
  ⟨by decide, by decide, permute_terminates exFrm exP exDst (by decide) (by decide),
   by decide, by decide, by decide⟩

/-- C19: on a valid input in which both views are compact, the checked engine returns for
every callable, so no bounds-checked pointer reports an out-of-range access, and every
address at which it dereferences the destination or the source is at an offset within
`[0, size())` of that view; the log holds one entry per element, so a pointer stepped past
the end of a run is not dereferenced there. -/
theorem permute_derefs_in_bounds (fuel : Nat) (frm : TensorRef) (P : Permutation)
    (dst : TensorRef) (hv : ValidShape frm P dst) (hcf : Compact frm) (hcd : Compact dst)
    (hfuel : frm.size < fuel) :
    (∀ (σ : Type) (call : σ → Int → Int → σ) (s : σ),
      ∃ s', permute true call fuel frm P dst s = .done s') ∧
    ∃ log, permute true traceCall fuel frm P dst [] = .done log ∧ log.length = frm.size ∧
      ∀ p ∈ log, (0 ≤ p.1 - dst.data ∧ p.1 - dst.data < (dst.size : Int)) ∧
        (0 ≤ p.2 - frm.data ∧ p.2 - frm.data < (frm.size : Int)) := by
  have hd := fun (σ : Type) (call : σ → Int → Int → σ) (s : σ) =>
    (permute_checked_eq call fuel frm P dst s hv hcf.1 hcd.1).trans
      (permute_done call fuel frm P dst s hv hfuel)
  refine ⟨fun σ call s => ⟨_, hd σ call s⟩, _, hd _ traceCall [], ?_, ?_⟩
  · rw [applyPairs_traceCall, List.nil_append, cells, List.length_map,
      length_allIdx frm hv.2.2.2.1]
  · intro p hp
    rw [applyPairs_traceCall, List.nil_append] at hp
    obtain ⟨i, hi, rfl⟩ := exists_of_mem_cells hv hp
    have h1 := hcd.1 _ (inRange_permIdx hv hi)
    have h2 := hcf.1 _ hi
    simp only [cellPair]
    constructor <;> constructor <;> omega

/-- C19, at the end-to-end example, where the source pointer of the second run ends at
offset 6 = `size()` and the log stops at offset 5. -/
theorem permute_derefs_in_bounds_witness :
    ValidShape exFrm exP exDst ∧ Compact exFrm ∧ Compact exDst ∧ exFrm.size < 7 ∧
    ((∀ (σ : Type) (call : σ → Int → Int → σ) (s : σ),
      ∃ s', permute true call 7 exFrm exP exDst s = .done s') ∧
    ∃ log, permute true traceCall 7 exFrm exP exDst [] = .done log ∧
      log.length = exFrm.size ∧
      ∀ p ∈ log, (0 ≤ p.1 - exDst.data ∧ p.1 - exDst.data < (exDst.size : Int)) ∧
        (0 ≤ p.2 - exFrm.data ∧ p.2 - exFrm.data < (exFrm.size : Int))) ∧
    (permute true traceCall 7 exFrm exP exDst []).state?.map (List.map Prod.snd) =
      some [0, 1, 2, 3, 4, 5] :=
  ⟨by decide, exFrm_compact, exDst_compact, by decide,
   permute_derefs_in_bounds 7 exFrm exP exDst (by decide) exFrm_compact exDst_compact
     (by decide),
   by decide⟩

/-- C20: for a source array `X` with positive extents and bijections `P`, `Q` on its axes,
with `R.dest j = Q.dest (P.dest j)` for every `j`, the allocating permute of `permute(X, P)`
by `Q` and the allocating permute of `X` by `R` return arrays of the same rank and extents
that hold the same element at every index vector; each allocation is a newly owned array of
the requested shape (unchecked build). -/
theorem permute_compose {α : Type} (alloc1 alloc2 alloc3 : List IndStr → TensorRef)
    (fuel : Nat) (X : TensorRef) (P Q R : Permutation) (m : Mem α)
    (hr : P.size = X.r) (hP : P.IsBijection) (hQs : Q.size = X.r) (hQ : Q.IsBijection)
    (hRs : R.size = X.r) (hR : ∀ j, j < X.r → R.dest j = Q.dest (P.dest j))
    (hpos : PosExtents X)
    (hA1 : FreshAlloc alloc1 X P) (hA2 : FreshAlloc alloc2 (alloc1 (newRange X P)) Q)
    (hA3 : FreshAlloc alloc3 X R) (hfuel : X.size < fuel) :
    ∃ Y m1 Z m2 W m3, permuteNew alloc1 false fuel X P m = .done (Y, m1) ∧
      permuteNew alloc2 false fuel Y Q m1 = .done (Z, m2) ∧
      permuteNew alloc3 false fuel X R m = .done (W, m3) ∧
      Z.r = W.r ∧ (∀ j, j < W.r → Z.extent j = W.extent j) ∧
      ∀ t, InRange W t → m2 (Z.data + ind Z t) = m3 (W.data + ind W t) := by
  have hRb : R.IsBijection :=
    isBijection_of_comp hP hQ (hQs.trans hr.symm) (hRs.trans hr.symm)
      (fun j hj => hR j (hr ▸ hj))
  obtain ⟨hv1, m1, h1, g1⟩ := permuteNew_spec alloc1 fuel X P m hr hP hpos hA1 hfuel
  have hsize : (alloc1 (newRange X P)).size = X.size :=
    size_eq_of_extents hP hr hv1.2.1 hv1.2.2.2.2
  obtain ⟨hv2, m2, h2, g2⟩ := permuteNew_spec alloc2 fuel (alloc1 (newRange X P)) Q m1
    (hQs.trans hv1.2.1.symm) hQ (posExtents_of_validShape hv1) hA2 (hsize ▸ hfuel)
  obtain ⟨hv3, m3, h3, g3⟩ := permuteNew_spec alloc3 fuel X R m hRs hRb hpos hA3 hfuel
  refine ⟨_, m1, _, m2, _, m3, h1, h2, h3, (hv2.2.1.trans hv1.2.1).trans hv3.2.1.symm, ?_, ?_⟩
  · intro k hk
    rw [hv3.2.1, ← hRs] at hk
    obtain ⟨j, hj, rfl⟩ := Permutation.exists_dest_eq hRb k hk
    have hj' : j < X.r := hRs ▸ hj
    rw [hv3.2.2.2.2 j hj', hR j hj',
      hv2.2.2.2.2 (P.dest j) (by rw [hv1.2.1, ← hr]; exact hP.1 j (hr ▸ hj')),
      hv1.2.2.2.2 j hj']
  · intro t ht
    obtain ⟨i, hi, rfl⟩ := exists_inRange_permIdx hv3 ht
    rw [g3 i hi]
    have e := g2 (permIdx P i) (inRange_permIdx hv1 hi)
    rw [permIdx_permIdx hP hQ (hQs.trans hr.symm) i (permIdx R i)
      ((length_permIdx R i).trans (hRs.trans hr.symm))
      (fun j hj => by
        rw [← hR j (hr ▸ hj)]
        exact getD_permIdx hRb i j (by rw [hRs, ← hr]; exact hj))] at e
    rw [e]
    exact g1 i hi

/-- C20, at extents (3,3,2) holding 1..18: permuting by (1,2,0) and then by (1,0,2) gives the
array that permuting by (0,2,1) gives, with extents (3,2,3). -/
theorem permute_compose_witness :
    exP3.size = exTieFrm.r ∧ exP3.IsBijection ∧ exQ3.size = exTieFrm.r ∧ exQ3.IsBijection ∧
    exR3.size = exTieFrm.r ∧ (∀ j, j < exTieFrm.r → exR3.dest j = exQ3.dest (exP3.dest j)) ∧
    PosExtents exTieFrm ∧ FreshAlloc (exAllocAt 100) exTieFrm exP3 ∧
    FreshAlloc (exAllocAt 200) (exAllocAt 100 (newRange exTieFrm exP3)) exQ3 ∧
    FreshAlloc (exAllocAt 300) exTieFrm exR3 ∧ exTieFrm.size < 19 ∧
    (∃ Y m1 Z m2 W m3, permuteNew (exAllocAt 100) false 19 exTieFrm exP3 exMem18 = .done (Y, m1) ∧
      permuteNew (exAllocAt 200) false 19 Y exQ3 m1 = .done (Z, m2) ∧
      permuteNew (exAllocAt 300) false 19 exTieFrm exR3 exMem18 = .done (W, m3) ∧
      Z.r = W.r ∧ (∀ j, j < W.r → Z.extent j = W.extent j) ∧
      ∀ t, InRange W t → m2 (Z.data + ind Z t) = m3 (W.data + ind W t)) ∧
    ((permuteNew (exAllocAt 100) false 19 exTieFrm exP3 exMem18).state?.bind
      (fun r => (permuteNew (exAllocAt 200) false 19 r.1 exQ3 r.2).state?)).map
      (fun r => (List.map IndStr.ext r.1.range,
        List.map (fun i => r.2 (r.1.data + ind r.1 i)) [[0, 0, 0], [1, 0, 0], [0, 1, 0], [0, 0, 1]])) =
      some ([3, 2, 3], [1, 2, 10, 4]) ∧
    (permuteNew (exAllocAt 300) false 19 exTieFrm exR3 exMem18).state?.map
      (fun r => (List.map IndStr.ext r.1.range,
        List.map (fun i => r.2 (r.1.data + ind r.1 i)) [[0, 0, 0], [1, 0, 0], [0, 1, 0], [0, 0, 1]])) =
      some ([3, 2, 3], [1, 2, 10, 4]) :=
  ⟨by decide, by decide, by decide, by decide, by decide, by decide, by decide,
   exAlloc3_fresh_P, exAlloc3_fresh_Q, exAlloc3_fresh_R, by decide,
   permute_compose (exAllocAt 100) (exAllocAt 200) (exAllocAt 300) 19 exTieFrm exP3 exQ3 exR3
     exMem18 (by decide) (by decide) (by decide) (by decide) (by decide) (by decide)
     (by decide) exAlloc3_fresh_P exAlloc3_fresh_Q exAlloc3_fresh_R (by decide),
   by decide, by decide⟩

end itensor
